import Mathlib

/-!
A shallow embedding of the `vanilla-orderbook` Rust crate: a continuous
double-auction matching engine with price-time priority.

Data model (from `src/lib.rs`): `Side`, `Order`, `Trade`, `PriceLevel` with its
side-dependent `Ord` instance.  Book engine (from `src/orderbook.rs`): an
`OrderBook` holding two `BTreeMap<PriceLevel, VecDeque<Order>>` sides, with
`place_order`, `match_at_price_level`, `add_to_book` and the query operations.

A `BTreeMap` whose keys all share one side is modelled as an association list
kept sorted by `PriceLevel.cmp` (so the list head is the map's first/minimum
key, exactly what `first_key_value` returns).  The two Rust `while` loops are
modelled as structurally recursive functions over an explicit fuel argument;
the fuel passed by the wrappers is proved sufficient (the loop result is a
terminal state) in the theorems below, which is the termination argument for
the Rust loops.  `u64`/`u128` values are modelled as `Nat`: the loops only
ever subtract amounts bounded by the minuend, so no wrap-around can occur.
The wall-clock read in `place_order` is modelled as an explicit `now`
parameter.
-/

set_option maxHeartbeats 1000000

namespace VanillaOrderbook

/-- `Side` enum from `src/lib.rs`. -/
inductive Side where
  | Buy
  | Sell
deriving DecidableEq

/-- `Order` struct from `src/lib.rs`. -/
structure Order where
  id : Nat
  price : Nat
  quantity : Nat
  timestamp : Nat
deriving DecidableEq

/-- `Trade` struct from `src/lib.rs`. -/
structure Trade where
  price : Nat
  quantity : Nat
  maker_id : Nat
  taker_id : Nat
deriving DecidableEq

/-- `PriceLevel` struct from `src/lib.rs`: a map key combining price and side. -/
structure PriceLevel where
  price : Nat
  side : Side
deriving DecidableEq

/-- The `Ord` impl for `PriceLevel` from `src/lib.rs`: buy keys compare by
inverted price, sell keys by natural price. -/
def PriceLevel.cmp (self other : PriceLevel) : Ordering :=
  match self.side with
  | Side.Buy => compare other.price self.price
  | Side.Sell => compare self.price other.price

/-- A `VecDeque<Order>`. -/
abbrev Queue := List Order

/-- A `BTreeMap<PriceLevel, VecDeque<Order>>`, as an association list sorted by
`PriceLevel.cmp` (head = minimum key). -/
abbrev BMap := List (PriceLevel × Queue)

/-- `BTreeMap::get`/`get_mut`: the queue stored under the key that compares
equal to `k`, if any. -/
def bmapFind (k : PriceLevel) : BMap → Option Queue
  | [] => none
  | (k0, q0) :: rest =>
    if PriceLevel.cmp k k0 = Ordering.eq then some q0 else bmapFind k rest

/-- In-place mutation through `get_mut`: replace the queue stored under the key
comparing equal to `k`. -/
def bmapSet (k : PriceLevel) (q : Queue) : BMap → BMap
  | [] => []
  | (k0, q0) :: rest =>
    if PriceLevel.cmp k k0 = Ordering.eq then (k0, q) :: rest
    else (k0, q0) :: bmapSet k q rest

/-- `BTreeMap::remove`: drop the entry whose key compares equal to `k`. -/
def bmapRemove (k : PriceLevel) : BMap → BMap
  | [] => []
  | (k0, q0) :: rest =>
    if PriceLevel.cmp k k0 = Ordering.eq then rest
    else (k0, q0) :: bmapRemove k rest

/-- `book.entry(price_key).or_default().push_back(order)`: append `o` to the
queue under `k`, creating the entry at its sorted position if absent. -/
def bmapPushBack (k : PriceLevel) (o : Order) : BMap → BMap
  | [] => [(k, [o])]
  | (k0, q0) :: rest =>
    match PriceLevel.cmp k k0 with
    | Ordering.lt => (k, [o]) :: (k0, q0) :: rest
    | Ordering.eq => (k0, q0 ++ [o]) :: rest
    | Ordering.gt => (k0, q0) :: bmapPushBack k o rest

/-- The `OrderBook` struct from `src/orderbook.rs`. -/
structure OrderBook where
  buy_side : BMap
  sell_side : BMap
deriving DecidableEq

/-- `OrderBook::default()`. -/
def OrderBook.empty : OrderBook := ⟨[], []⟩

/-- The map holding resting orders of side `s` (`self.buy_side` /
`self.sell_side`). -/
def sideBook (ob : OrderBook) : Side → BMap
  | Side.Buy => ob.buy_side
  | Side.Sell => ob.sell_side

/-- Replace the map of side `s`. -/
def withSideBook (ob : OrderBook) : Side → BMap → OrderBook
  | Side.Buy, b => { ob with buy_side := b }
  | Side.Sell, b => { ob with sell_side := b }

/-- The inner `while qty > 0 && !orders.is_empty()` loop of
`OrderBook::match_at_price_level`, with explicit fuel.  Each iteration fills
the front order with `trade_qty = min qty front.quantity`, pushes the trade,
decrements both quantities, and pops the front order when it reaches zero. -/
def fillQueue (price taker_id : Nat) : Nat → Nat → Queue → List Trade → Nat × Queue × List Trade
  | 0, qty, orders, trades => (qty, orders, trades)
  | fuel + 1, qty, orders, trades =>
    match orders with
    | [] => (qty, orders, trades)
    | front :: rest =>
      if 0 < qty then
        let trade_qty := min qty front.quantity
        let trades2 := trades ++ [⟨price, trade_qty, front.id, taker_id⟩]
        let qty2 := qty - trade_qty
        let fq := front.quantity - trade_qty
        if fq = 0 then fillQueue price taker_id fuel qty2 rest trades2
        else fillQueue price taker_id fuel qty2 ({ front with quantity := fq } :: rest) trades2
      else (qty, orders, trades)

/-- `OrderBook::match_at_price_level`: drain the queue under
`⟨price, book_side⟩` against the taker, then remove the price level if its
queue is empty.  Returns the taker's leftover quantity, the updated book and
the accumulated trades. -/
def matchAtPriceLevel (ob : OrderBook) (book_side : Side) (price qty taker_id : Nat)
    (trades : List Trade) : Nat × OrderBook × List Trade :=
  let price_key : PriceLevel := ⟨price, book_side⟩
  let book := sideBook ob book_side
  match bmapFind price_key book with
  | none => (qty, ob, trades)
  | some orders =>
    let r := fillQueue price taker_id (qty + orders.length + 1) qty orders trades
    let book2 := if r.2.1 = [] then bmapRemove price_key book else bmapSet price_key r.2.1 book
    (r.1, withSideBook ob book_side book2, r.2.2)

/-- The outer matching loop of `OrderBook::place_order` (the two symmetric
`while incoming_order.quantity > 0` loops), with explicit fuel: look at the
opposite side's first (best) price level; if the taker's price crosses it,
drain that level, otherwise stop. -/
def matchLoop : Nat → Side → Nat → Nat → Nat → OrderBook → List Trade → Nat × OrderBook × List Trade
  | 0, _, _, _, qty, ob, trades => (qty, ob, trades)
  | fuel + 1, side, price, id, qty, ob, trades =>
    if 0 < qty then
      match side with
      | Side.Buy =>
        match ob.sell_side with
        | [] => (qty, ob, trades)
        | (k, _) :: _ =>
          if k.price ≤ price then
            let r := matchAtPriceLevel ob Side.Sell k.price qty id trades
            matchLoop fuel side price id r.1 r.2.1 r.2.2
          else (qty, ob, trades)
      | Side.Sell =>
        match ob.buy_side with
        | [] => (qty, ob, trades)
        | (k, _) :: _ =>
          if price ≤ k.price then
            let r := matchAtPriceLevel ob Side.Buy k.price qty id trades
            matchLoop fuel side price id r.1 r.2.1 r.2.2
          else (qty, ob, trades)
    else (qty, ob, trades)

/-- `OrderBook::add_to_book`: push the order onto the back of the queue at its
`(price, side)` level. -/
def add_to_book (ob : OrderBook) (side : Side) (order : Order) : OrderBook :=
  let price_key : PriceLevel := ⟨order.price, side⟩
  match side with
  | Side.Buy => { ob with buy_side := bmapPushBack price_key order ob.buy_side }
  | Side.Sell => { ob with sell_side := bmapPushBack price_key order ob.sell_side }

/-- Fuel sufficient for the `place_order` matching loop: each iteration either
zeroes the taker quantity or removes one opposite price level. -/
def placeFuel (ob : OrderBook) (side : Side) (quantity : Nat) : Nat :=
  match side with
  | Side.Buy => quantity + ob.sell_side.length + 1
  | Side.Sell => quantity + ob.buy_side.length + 1

/-- `OrderBook::place_order`: match against the opposite side, then rest any
unfilled remainder (stamped with `now`) on the own side.  Returns the updated
book and the trades generated. -/
def place_order (ob : OrderBook) (side : Side) (price quantity id now : Nat) :
    OrderBook × List Trade :=
  let r := matchLoop (placeFuel ob side quantity) side price id quantity ob []
  if 0 < r.1 then (add_to_book r.2.1 side ⟨id, price, r.1, now⟩, r.2.2)
  else (r.2.1, r.2.2)

/-- `OrderBook::best_buy`: price and total resting quantity of the first
(best) buy level. -/
def best_buy (ob : OrderBook) : Option (Nat × Nat) :=
  match ob.buy_side with
  | [] => none
  | (k, orders) :: _ => some (k.price, (orders.map Order.quantity).sum)

/-- `OrderBook::best_sell`: price and total resting quantity of the first
(best) sell level. -/
def best_sell (ob : OrderBook) : Option (Nat × Nat) :=
  match ob.sell_side with
  | [] => none
  | (k, orders) :: _ => some (k.price, (orders.map Order.quantity).sum)

/-- `OrderBook::get_orders`. -/
def get_orders (ob : OrderBook) (price_key : PriceLevel) : Option Queue :=
  match price_key.side with
  | Side.Buy => bmapFind price_key ob.buy_side
  | Side.Sell => bmapFind price_key ob.sell_side

/-- `OrderBook::is_buy_side_empty`. -/
def is_buy_side_empty (ob : OrderBook) : Bool := ob.buy_side.isEmpty

/-- `OrderBook::is_sell_side_empty`. -/
def is_sell_side_empty (ob : OrderBook) : Bool := ob.sell_side.isEmpty

/-- The crossing test of `place_order`: a Buy taker crosses a sell level iff
`level_price ≤ taker_price`; a Sell taker crosses a buy level iff
`taker_price ≤ level_price`. -/
def crosses (side : Side) (taker_price level_price : Nat) : Bool :=
  match side with
  | Side.Buy => level_price ≤ taker_price
  | Side.Sell => taker_price ≤ level_price

/-- The side a taker matches against. -/
def oppositeSide : Side → Side
  | Side.Buy => Side.Sell
  | Side.Sell => Side.Buy

/-- The opposite-side map a taker of side `side` matches against. -/
def oppBook (ob : OrderBook) (side : Side) : BMap :=
  match side with
  | Side.Buy => ob.sell_side
  | Side.Sell => ob.buy_side

/-- A terminal state of the matching loop: taker quantity exhausted, opposite
side empty, or best remaining opposite level fails the crossing test. -/
def LoopDone (side : Side) (price qty : Nat) (ob : OrderBook) : Prop :=
  qty = 0 ∨ oppBook ob side = [] ∨
    ∀ k q rest, oppBook ob side = (k, q) :: rest → crosses side price k.price = false

/-- Earlier-to-later comparison of trade prices: for a Buy taker an earlier
trade price is at least as good when it is lower, for a Sell taker when it is
higher. -/
def noWorse (side : Side) (p1 p2 : Nat) : Prop :=
  match side with
  | Side.Buy => p1 ≤ p2
  | Side.Sell => p2 ≤ p1

/-- Zero out an order's timestamp (all fields the engine's decisions may read
are kept). -/
def eraseTime (o : Order) : Order := { o with timestamp := 0 }

/-- Zero out the timestamps of a queue. -/
def eraseTimesQ (q : Queue) : Queue := q.map eraseTime

/-- Zero out the timestamps of one book side. -/
def eraseTimesB (b : BMap) : BMap := b.map (fun e => (e.1, eraseTimesQ e.2))

/-- Zero out all resting-order timestamps of a book. -/
def eraseTimes (ob : OrderBook) : OrderBook :=
  ⟨eraseTimesB ob.buy_side, eraseTimesB ob.sell_side⟩

/-- Book states reachable from the empty book by `place_order` calls. -/
inductive Reachable : OrderBook → Prop
  | empty : Reachable OrderBook.empty
  | step (ob : OrderBook) (side : Side) (price quantity id now : Nat) :
      Reachable ob → Reachable (place_order ob side price quantity id now).1

/-- The association list is sorted strictly by `PriceLevel.cmp` (the `BTreeMap`
representation invariant). -/
def MapOrdered (b : BMap) : Prop :=
  b.Pairwise (fun e1 e2 => PriceLevel.cmp e1.1 e2.1 = Ordering.lt)

/-- All keys of the map carry side `s`. -/
def MapSide (s : Side) (b : BMap) : Prop := ∀ e ∈ b, e.1.side = s

/-- Every queue in the map is non-empty and holds only positive quantities. -/
def MapQueuesWF (b : BMap) : Prop := ∀ e ∈ b, e.2 ≠ [] ∧ ∀ o ∈ e.2, 0 < o.quantity

/-- Full well-formedness of a book state: both sides are sorted `BTreeMap`
representations keyed by their own side, queues are non-empty with positive
quantities, and the book is not crossed at rest. -/
def BookWF (ob : OrderBook) : Prop :=
  MapOrdered ob.buy_side ∧ MapOrdered ob.sell_side ∧
  MapSide Side.Buy ob.buy_side ∧ MapSide Side.Sell ob.sell_side ∧
  MapQueuesWF ob.buy_side ∧ MapQueuesWF ob.sell_side ∧
  (∀ pb qb ps qs, best_buy ob = some (pb, qb) → best_sell ob = some (ps, qs) → pb < ps)

/-- Run a sequence of `place_order` requests `(side, price, quantity, id)`,
stamping the `i`-th call with `clock i`.  Returns the final book and the trade
list of every call. -/
def runSeq (clock : Nat → Nat) : Nat → OrderBook → List (Side × Nat × Nat × Nat) →
    OrderBook × List (List Trade)
  | _, ob, [] => (ob, [])
  | i, ob, (side, price, quantity, id) :: rest =>
    let r := place_order ob side price quantity id (clock i)
    let rr := runSeq clock (i + 1) r.1 rest
    (rr.1, r.2 :: rr.2)

/-! ### Facts about `PriceLevel.cmp` -/

theorem cmp_eq_iff (a b : PriceLevel) : PriceLevel.cmp a b = Ordering.eq ↔ a.price = b.price := by
  cases a with
  | mk p s =>
    cases s
    · simp only [PriceLevel.cmp, Nat.compare_eq_eq]
      exact eq_comm
    · simp [PriceLevel.cmp, Nat.compare_eq_eq]

theorem cmp_refl_eq (p : Nat) (s s' : Side) :
    PriceLevel.cmp ⟨p, s⟩ ⟨p, s'⟩ = Ordering.eq := by
  simp [cmp_eq_iff]

theorem cmp_lt_buy (a b : PriceLevel) (h : a.side = Side.Buy) :
    PriceLevel.cmp a b = Ordering.lt ↔ b.price < a.price := by
  cases a with
  | mk p s => cases s <;> simp_all [PriceLevel.cmp, Nat.compare_eq_lt]

theorem cmp_lt_sell (a b : PriceLevel) (h : a.side = Side.Sell) :
    PriceLevel.cmp a b = Ordering.lt ↔ a.price < b.price := by
  cases a with
  | mk p s => cases s <;> simp_all [PriceLevel.cmp, Nat.compare_eq_lt]

theorem cmp_gt_buy (a b : PriceLevel) (h : a.side = Side.Buy) :
    PriceLevel.cmp a b = Ordering.gt ↔ a.price < b.price := by
  cases a with
  | mk p s => cases s <;> simp_all [PriceLevel.cmp, Nat.compare_eq_gt]

theorem cmp_gt_sell (a b : PriceLevel) (h : a.side = Side.Sell) :
    PriceLevel.cmp a b = Ordering.gt ↔ b.price < a.price := by
  cases a with
  | mk p s => cases s <;> simp_all [PriceLevel.cmp, Nat.compare_eq_gt]

/-! ### Equation lemmas for `fillQueue` -/

theorem fillQueue_zero_fuel (p t qty : Nat) (orders : Queue) (acc : List Trade) :
    fillQueue p t 0 qty orders acc = (qty, orders, acc) := rfl

theorem fillQueue_nil (p t f qty : Nat) (acc : List Trade) :
    fillQueue p t (f + 1) qty [] acc = (qty, [], acc) := rfl

theorem fillQueue_not_pos (p t f qty : Nat) (front : Order) (rest : Queue)
    (acc : List Trade) (hq : ¬ 0 < qty) :
    fillQueue p t (f + 1) qty (front :: rest) acc = (qty, front :: rest, acc) := by
  simp [fillQueue, hq]

theorem fillQueue_succ_cons (p t f qty : Nat) (front : Order) (rest : Queue)
    (acc : List Trade) (hq : 0 < qty) :
    fillQueue p t (f + 1) qty (front :: rest) acc =
      if front.quantity - min qty front.quantity = 0 then
        fillQueue p t f (qty - min qty front.quantity) rest
          (acc ++ [⟨p, min qty front.quantity, front.id, t⟩])
      else
        fillQueue p t f (qty - min qty front.quantity)
          ({ front with quantity := front.quantity - min qty front.quantity } :: rest)
          (acc ++ [⟨p, min qty front.quantity, front.id, t⟩]) := by
  simp [fillQueue, hq]

theorem fillQueue_zero_qty (p t fuel : Nat) (orders : Queue) (acc : List Trade) :
    fillQueue p t fuel 0 orders acc = (0, orders, acc) := by
  cases fuel with
  | zero => rfl
  | succ f =>
    cases orders with
    | nil => rfl
    | cons front rest => exact fillQueue_not_pos p t f 0 front rest acc (by omega)

/-! ### Structural lemmas about `fillQueue` -/

theorem fillQueue_acc (p t : Nat) : ∀ fuel qty orders acc,
    fillQueue p t fuel qty orders acc =
      ((fillQueue p t fuel qty orders []).1, (fillQueue p t fuel qty orders []).2.1,
        acc ++ (fillQueue p t fuel qty orders []).2.2) := by
  intro fuel
  induction fuel with
  | zero => intro qty orders acc; simp [fillQueue_zero_fuel]
  | succ f ih =>
    intro qty orders acc
    cases orders with
    | nil => simp [fillQueue_nil]
    | cons front rest =>
      by_cases hq : 0 < qty
      · rw [fillQueue_succ_cons p t f qty front rest acc hq,
          fillQueue_succ_cons p t f qty front rest [] hq]
        by_cases hfq : front.quantity - min qty front.quantity = 0
        · rw [if_pos hfq, if_pos hfq, ih, ih _ _ ([] ++ _)]
          simp
        · rw [if_neg hfq, if_neg hfq, ih, ih _ _ ([] ++ _)]
          simp
      · rw [fillQueue_not_pos p t f qty front rest acc hq,
          fillQueue_not_pos p t f qty front rest [] hq]
        simp

theorem fillQueue_conserve (p t : Nat) : ∀ fuel qty orders acc,
    (fillQueue p t fuel qty orders acc).1 +
      (((fillQueue p t fuel qty orders acc).2.2).map Trade.quantity).sum =
    qty + ((acc.map Trade.quantity).sum) := by
  intro fuel
  induction fuel with
  | zero => intro qty orders acc; simp [fillQueue_zero_fuel]
  | succ f ih =>
    intro qty orders acc
    cases orders with
    | nil => simp [fillQueue_nil]
    | cons front rest =>
      by_cases hq : 0 < qty
      · rw [fillQueue_succ_cons p t f qty front rest acc hq]
        have hmin : min qty front.quantity ≤ qty := Nat.min_le_left _ _
        by_cases hfq : front.quantity - min qty front.quantity = 0
        · rw [if_pos hfq, ih]
          simp
          omega
        · rw [if_neg hfq, ih]
          simp
          omega
      · rw [fillQueue_not_pos p t f qty front rest acc hq]

theorem fillQueue_qty_le (p t : Nat) : ∀ fuel qty orders acc,
    (fillQueue p t fuel qty orders acc).1 ≤ qty := by
  intro fuel
  induction fuel with
  | zero => intro qty orders acc; simp [fillQueue_zero_fuel]
  | succ f ih =>
    intro qty orders acc
    cases orders with
    | nil => simp [fillQueue_nil]
    | cons front rest =>
      by_cases hq : 0 < qty
      · rw [fillQueue_succ_cons p t f qty front rest acc hq]
        by_cases hfq : front.quantity - min qty front.quantity = 0
        · rw [if_pos hfq]
          exact le_trans (ih _ _ _) (Nat.sub_le _ _)
        · rw [if_neg hfq]
          exact le_trans (ih _ _ _) (Nat.sub_le _ _)
      · rw [fillQueue_not_pos p t f qty front rest acc hq]

theorem fillQueue_terminal (p t : Nat) : ∀ fuel qty orders acc,
    qty + orders.length + 1 ≤ fuel →
    (fillQueue p t fuel qty orders acc).1 = 0 ∨ (fillQueue p t fuel qty orders acc).2.1 = [] := by
  intro fuel
  induction fuel with
  | zero => intro qty orders acc h; omega
  | succ f ih =>
    intro qty orders acc h
    cases orders with
    | nil => right; simp [fillQueue_nil]
    | cons front rest =>
      by_cases hq : 0 < qty
      · rw [fillQueue_succ_cons p t f qty front rest acc hq]
        by_cases hfq : front.quantity - min qty front.quantity = 0
        · rw [if_pos hfq]
          refine ih _ _ _ ?_
          simp at h ⊢
          have : min qty front.quantity ≤ qty := Nat.min_le_left _ _
          omega
        · rw [if_neg hfq]
          have hlt : min qty front.quantity < front.quantity := by omega
          have hmq : min qty front.quantity = qty := by omega
          rw [hmq, Nat.sub_self, fillQueue_zero_qty]
          left
          rfl
      · rw [fillQueue_not_pos p t f qty front rest acc hq]
        left
        omega

theorem fillQueue_pos (p t : Nat) : ∀ fuel qty orders acc,
    (∀ o ∈ orders, 0 < o.quantity) →
    ∀ o ∈ (fillQueue p t fuel qty orders acc).2.1, 0 < o.quantity := by
  intro fuel
  induction fuel with
  | zero => intro qty orders acc h; simpa [fillQueue_zero_fuel] using h
  | succ f ih =>
    intro qty orders acc h
    cases orders with
    | nil => simp [fillQueue_nil]
    | cons front rest =>
      by_cases hq : 0 < qty
      · rw [fillQueue_succ_cons p t f qty front rest acc hq]
        by_cases hfq : front.quantity - min qty front.quantity = 0
        · rw [if_pos hfq]
          exact ih _ _ _ (fun o ho => h o (List.mem_cons_of_mem _ ho))
        · rw [if_neg hfq]
          refine ih _ _ _ ?_
          intro o ho
          rcases List.mem_cons.mp ho with h1 | h1
          · subst h1; simpa using Nat.pos_of_ne_zero hfq
          · exact h o (List.mem_cons_of_mem _ h1)
      · rw [fillQueue_not_pos p t f qty front rest acc hq]
        exact h

theorem fillQueue_trade_fields (p t : Nat) : ∀ fuel qty orders acc,
    ∀ tr ∈ (fillQueue p t fuel qty orders acc).2.2,
      tr ∈ acc ∨ (tr.price = p ∧ tr.taker_id = t) := by
  intro fuel
  induction fuel with
  | zero => intro qty orders acc tr h; left; simpa [fillQueue_zero_fuel] using h
  | succ f ih =>
    intro qty orders acc tr h
    cases orders with
    | nil => left; simpa [fillQueue_nil] using h
    | cons front rest =>
      by_cases hq : 0 < qty
      · rw [fillQueue_succ_cons p t f qty front rest acc hq] at h
        by_cases hfq : front.quantity - min qty front.quantity = 0
        · rw [if_pos hfq] at h
          rcases ih _ _ _ _ h with h1 | h1
          · rcases List.mem_append.mp h1 with h2 | h2
            · exact Or.inl h2
            · simp at h2
              subst h2
              exact Or.inr ⟨rfl, rfl⟩
          · exact Or.inr h1
        · rw [if_neg hfq] at h
          rcases ih _ _ _ _ h with h1 | h1
          · rcases List.mem_append.mp h1 with h2 | h2
            · exact Or.inl h2
            · simp at h2
              subst h2
              exact Or.inr ⟨rfl, rfl⟩
          · exact Or.inr h1
      · rw [fillQueue_not_pos p t f qty front rest acc hq] at h
        exact Or.inl h

theorem fillQueue_maker_ids (p t : Nat) : ∀ fuel qty orders,
    ((fillQueue p t fuel qty orders []).2.2).map Trade.maker_id =
      (orders.map Order.id).take ((fillQueue p t fuel qty orders []).2.2).length := by
  intro fuel
  induction fuel with
  | zero => intro qty orders; simp [fillQueue_zero_fuel]
  | succ f ih =>
    intro qty orders
    cases orders with
    | nil => simp [fillQueue_nil]
    | cons front rest =>
      by_cases hq : 0 < qty
      · rw [fillQueue_succ_cons p t f qty front rest [] hq]
        by_cases hfq : front.quantity - min qty front.quantity = 0
        · rw [if_pos hfq, List.nil_append, fillQueue_acc]
          simp only [List.map_append, List.length_append]
          rw [ih]
          simp [List.take_succ_cons, Nat.one_add]
        · rw [if_neg hfq]
          have hmq : min qty front.quantity = qty := by omega
          rw [List.nil_append, hmq, Nat.sub_self, fillQueue_zero_qty]
          simp
      · rw [fillQueue_not_pos p t f qty front rest [] hq]
        simp

theorem fillQueue_head_trade (p t f qty : Nat) (front : Order) (rest : Queue) (hq : 0 < qty) :
    ((fillQueue p t (f + 1) qty (front :: rest) []).2.2).head? =
      some ⟨p, min qty front.quantity, front.id, t⟩ := by
  rw [fillQueue_succ_cons p t f qty front rest [] hq]
  by_cases hfq : front.quantity - min qty front.quantity = 0
  · rw [if_pos hfq, List.nil_append, fillQueue_acc]
    simp
  · rw [if_neg hfq, List.nil_append, fillQueue_acc]
    simp

theorem eraseTime_id (o : Order) : (eraseTime o).id = o.id := rfl

theorem eraseTime_quantity (o : Order) : (eraseTime o).quantity = o.quantity := rfl

theorem fillQueue_erase (p t : Nat) : ∀ fuel qty orders acc,
    fillQueue p t fuel qty (eraseTimesQ orders) acc =
      ((fillQueue p t fuel qty orders acc).1,
       eraseTimesQ (fillQueue p t fuel qty orders acc).2.1,
       (fillQueue p t fuel qty orders acc).2.2) := by
  intro fuel
  induction fuel with
  | zero => intro qty orders acc; simp [fillQueue_zero_fuel]
  | succ f ih =>
    intro qty orders acc
    cases orders with
    | nil => simp [fillQueue_nil, eraseTimesQ]
    | cons front rest =>
      have hcons : eraseTimesQ (front :: rest) = eraseTime front :: eraseTimesQ rest := rfl
      by_cases hq : 0 < qty
      · rw [hcons, fillQueue_succ_cons p t f qty (eraseTime front) (eraseTimesQ rest) acc hq,
          fillQueue_succ_cons p t f qty front rest acc hq]
        rw [eraseTime_quantity, eraseTime_id]
        by_cases hfq : front.quantity - min qty front.quantity = 0
        · rw [if_pos hfq, if_pos hfq, ih]
        · rw [if_neg hfq, if_neg hfq]
          exact ih (qty - min qty front.quantity)
            ({ front with quantity := front.quantity - min qty front.quantity } :: rest)
            (acc ++ [⟨p, min qty front.quantity, front.id, t⟩])
      · rw [hcons, fillQueue_not_pos p t f qty (eraseTime front) (eraseTimesQ rest) acc hq,
          fillQueue_not_pos p t f qty front rest acc hq]
        rfl

/-! ### Timestamp-erasure commutes with the map operations -/

theorem bmapFind_erase (k : PriceLevel) : ∀ b : BMap,
    bmapFind k (eraseTimesB b) = (bmapFind k b).map eraseTimesQ := by
  intro b
  induction b with
  | nil => rfl
  | cons e rest ih =>
    cases e with
    | mk k0 q0 =>
      by_cases hc : PriceLevel.cmp k k0 = Ordering.eq
      · simp [eraseTimesB, bmapFind, hc]
      · simp only [eraseTimesB, List.map_cons, bmapFind, if_neg hc]
        simpa [eraseTimesB] using ih

theorem bmapRemove_erase (k : PriceLevel) : ∀ b : BMap,
    bmapRemove k (eraseTimesB b) = eraseTimesB (bmapRemove k b) := by
  intro b
  induction b with
  | nil => rfl
  | cons e rest ih =>
    cases e with
    | mk k0 q0 =>
      by_cases hc : PriceLevel.cmp k k0 = Ordering.eq
      · simp [eraseTimesB, bmapRemove, hc]
      · simp only [eraseTimesB, List.map_cons, bmapRemove, if_neg hc]
        simpa [eraseTimesB] using ih

theorem bmapSet_erase (k : PriceLevel) (q : Queue) : ∀ b : BMap,
    bmapSet k (eraseTimesQ q) (eraseTimesB b) = eraseTimesB (bmapSet k q b) := by
  intro b
  induction b with
  | nil => rfl
  | cons e rest ih =>
    cases e with
    | mk k0 q0 =>
      by_cases hc : PriceLevel.cmp k k0 = Ordering.eq
      · simp [eraseTimesB, bmapSet, hc]
      · simp only [eraseTimesB, List.map_cons, bmapSet, if_neg hc]
        simpa [eraseTimesB] using ih

theorem sideBook_erase (ob : OrderBook) (s : Side) :
    sideBook (eraseTimes ob) s = eraseTimesB (sideBook ob s) := by
  cases s <;> rfl

theorem withSideBook_erase (ob : OrderBook) (s : Side) (b : BMap) :
    withSideBook (eraseTimes ob) s (eraseTimesB b) = eraseTimes (withSideBook ob s b) := by
  cases s <;> rfl

/-! ### Lemmas about `matchAtPriceLevel` -/

theorem matchAtPriceLevel_head (ob : OrderBook) (bside : Side) (qty tid : Nat)
    (acc : List Trade) (k0 : PriceLevel) (q0 : Queue) (t : BMap)
    (hhd : sideBook ob bside = (k0, q0) :: t) :
    matchAtPriceLevel ob bside k0.price qty tid acc =
      ((fillQueue k0.price tid (qty + q0.length + 1) qty q0 acc).1,
       withSideBook ob bside
         (if (fillQueue k0.price tid (qty + q0.length + 1) qty q0 acc).2.1 = [] then t
          else (k0, (fillQueue k0.price tid (qty + q0.length + 1) qty q0 acc).2.1) :: t),
       (fillQueue k0.price tid (qty + q0.length + 1) qty q0 acc).2.2) := by
  have hcmp : PriceLevel.cmp ⟨k0.price, bside⟩ k0 = Ordering.eq := (cmp_eq_iff _ _).mpr rfl
  unfold matchAtPriceLevel
  rw [hhd]
  simp [bmapFind, bmapRemove, bmapSet, hcmp]

theorem matchAtPriceLevel_none (ob : OrderBook) (bside : Side) (price qty tid : Nat)
    (acc : List Trade) (hfind : bmapFind ⟨price, bside⟩ (sideBook ob bside) = none) :
    matchAtPriceLevel ob bside price qty tid acc = (qty, ob, acc) := by
  simp [matchAtPriceLevel, hfind]

theorem matchAtPriceLevel_some (ob : OrderBook) (bside : Side) (price qty tid : Nat)
    (acc : List Trade) (orders : Queue)
    (hfind : bmapFind ⟨price, bside⟩ (sideBook ob bside) = some orders) :
    matchAtPriceLevel ob bside price qty tid acc =
      ((fillQueue price tid (qty + orders.length + 1) qty orders acc).1,
       withSideBook ob bside
         (if (fillQueue price tid (qty + orders.length + 1) qty orders acc).2.1 = [] then
           bmapRemove ⟨price, bside⟩ (sideBook ob bside)
          else bmapSet ⟨price, bside⟩
            (fillQueue price tid (qty + orders.length + 1) qty orders acc).2.1
            (sideBook ob bside)),
       (fillQueue price tid (qty + orders.length + 1) qty orders acc).2.2) := by
  simp [matchAtPriceLevel, hfind]

theorem matchAtPriceLevel_conserve (ob : OrderBook) (bside : Side) (price qty tid : Nat)
    (acc : List Trade) :
    (matchAtPriceLevel ob bside price qty tid acc).1 +
      (((matchAtPriceLevel ob bside price qty tid acc).2.2).map Trade.quantity).sum =
    qty + ((acc.map Trade.quantity).sum) := by
  cases hfind : bmapFind ⟨price, bside⟩ (sideBook ob bside) with
  | none => rw [matchAtPriceLevel_none ob bside price qty tid acc hfind]
  | some orders =>
    rw [matchAtPriceLevel_some ob bside price qty tid acc orders hfind]
    simpa using fillQueue_conserve price tid (qty + orders.length + 1) qty orders acc

theorem matchAtPriceLevel_qty_le (ob : OrderBook) (bside : Side) (price qty tid : Nat)
    (acc : List Trade) :
    (matchAtPriceLevel ob bside price qty tid acc).1 ≤ qty := by
  cases hfind : bmapFind ⟨price, bside⟩ (sideBook ob bside) with
  | none => rw [matchAtPriceLevel_none ob bside price qty tid acc hfind]
  | some orders =>
    rw [matchAtPriceLevel_some ob bside price qty tid acc orders hfind]
    simpa using fillQueue_qty_le price tid (qty + orders.length + 1) qty orders acc

theorem matchAtPriceLevel_acc (ob : OrderBook) (bside : Side) (price qty tid : Nat)
    (acc : List Trade) :
    matchAtPriceLevel ob bside price qty tid acc =
      ((matchAtPriceLevel ob bside price qty tid []).1,
       (matchAtPriceLevel ob bside price qty tid []).2.1,
       acc ++ (matchAtPriceLevel ob bside price qty tid []).2.2) := by
  cases hfind : bmapFind ⟨price, bside⟩ (sideBook ob bside) with
  | none =>
    rw [matchAtPriceLevel_none ob bside price qty tid acc hfind,
      matchAtPriceLevel_none ob bside price qty tid [] hfind]
    simp
  | some orders =>
    rw [matchAtPriceLevel_some ob bside price qty tid acc orders hfind,
      matchAtPriceLevel_some ob bside price qty tid [] orders hfind,
      fillQueue_acc price tid (qty + orders.length + 1) qty orders acc]

theorem matchAtPriceLevel_erase (ob : OrderBook) (bside : Side) (price qty tid : Nat)
    (acc : List Trade) :
    matchAtPriceLevel (eraseTimes ob) bside price qty tid acc =
      ((matchAtPriceLevel ob bside price qty tid acc).1,
       eraseTimes (matchAtPriceLevel ob bside price qty tid acc).2.1,
       (matchAtPriceLevel ob bside price qty tid acc).2.2) := by
  cases hfind : bmapFind ⟨price, bside⟩ (sideBook ob bside) with
  | none =>
    have hfind2 : bmapFind ⟨price, bside⟩ (sideBook (eraseTimes ob) bside) = none := by
      rw [sideBook_erase, bmapFind_erase, hfind]
      rfl
    rw [matchAtPriceLevel_none ob bside price qty tid acc hfind,
      matchAtPriceLevel_none (eraseTimes ob) bside price qty tid acc hfind2]
  | some orders =>
    have hfind2 : bmapFind ⟨price, bside⟩ (sideBook (eraseTimes ob) bside) =
        some (eraseTimesQ orders) := by
      rw [sideBook_erase, bmapFind_erase, hfind]
      rfl
    rw [matchAtPriceLevel_some ob bside price qty tid acc orders hfind,
      matchAtPriceLevel_some (eraseTimes ob) bside price qty tid acc (eraseTimesQ orders) hfind2]
    have hlen : (eraseTimesQ orders).length = orders.length := by simp [eraseTimesQ]
    rw [hlen, fillQueue_erase, sideBook_erase]
    have hnil : (eraseTimesQ (fillQueue price tid (qty + orders.length + 1) qty orders acc).2.1 = [])
        ↔ ((fillQueue price tid (qty + orders.length + 1) qty orders acc).2.1 = []) := by
      simp [eraseTimesQ]
    by_cases hq : (fillQueue price tid (qty + orders.length + 1) qty orders acc).2.1 = []
    · rw [if_pos (hnil.mpr hq), if_pos hq, bmapRemove_erase, withSideBook_erase]
    · rw [if_neg (fun hx => hq (hnil.mp hx)), if_neg hq, bmapSet_erase, withSideBook_erase]

/-! ### Side bookkeeping helpers -/

theorem oppBook_sideBook (ob : OrderBook) (side : Side) :
    oppBook ob side = sideBook ob (oppositeSide side) := by
  cases side <;> rfl

theorem oppositeSide_ne (side : Side) : oppositeSide side ≠ side := by
  cases side <;> simp [oppositeSide]

theorem sideBook_withSideBook_same (ob : OrderBook) (s : Side) (b : BMap) :
    sideBook (withSideBook ob s b) s = b := by
  cases s <;> rfl

theorem sideBook_withSideBook_ne (ob : OrderBook) (s s' : Side) (b : BMap) (h : s' ≠ s) :
    sideBook (withSideBook ob s b) s' = sideBook ob s' := by
  cases s <;> cases s' <;> first | rfl | exact absurd rfl h

theorem oppBook_withSideBook_opp (ob : OrderBook) (side : Side) (b : BMap) :
    oppBook (withSideBook ob (oppositeSide side) b) side = b := by
  cases side <;> rfl

theorem sideBook_withSideBook_opp (ob : OrderBook) (side : Side) (b : BMap) :
    sideBook (withSideBook ob (oppositeSide side) b) side = sideBook ob side := by
  cases side <;> rfl

theorem oppBook_erase (ob : OrderBook) (side : Side) :
    oppBook (eraseTimes ob) side = eraseTimesB (oppBook ob side) := by
  cases side <;> rfl

/-! ### Equation lemmas for `matchLoop` -/

theorem matchLoop_zero_fuel (side : Side) (price id qty : Nat) (ob : OrderBook)
    (acc : List Trade) : matchLoop 0 side price id qty ob acc = (qty, ob, acc) := rfl

theorem matchLoop_zero_qty (fuel : Nat) (side : Side) (price id : Nat) (ob : OrderBook)
    (acc : List Trade) : matchLoop fuel side price id 0 ob acc = (0, ob, acc) := by
  cases fuel with
  | zero => rfl
  | succ f => cases side <;> simp [matchLoop]

theorem matchLoop_succ_nil (f : Nat) (side : Side) (price id qty : Nat) (ob : OrderBook)
    (acc : List Trade) (hopp : oppBook ob side = []) :
    matchLoop (f + 1) side price id qty ob acc = (qty, ob, acc) := by
  cases side <;> simp only [oppBook] at hopp <;> simp [matchLoop, hopp]

theorem matchLoop_opp_nil (side : Side) (price id : Nat) : ∀ fuel qty (ob : OrderBook) acc,
    oppBook ob side = [] → matchLoop fuel side price id qty ob acc = (qty, ob, acc) := by
  intro fuel qty ob acc hopp
  cases fuel with
  | zero => rfl
  | succ f => exact matchLoop_succ_nil f side price id qty ob acc hopp

theorem matchLoop_succ_cons (f : Nat) (side : Side) (price id qty : Nat) (ob : OrderBook)
    (acc : List Trade) (hq : 0 < qty) (k : PriceLevel) (q : Queue) (t : BMap)
    (hopp : oppBook ob side = (k, q) :: t) :
    matchLoop (f + 1) side price id qty ob acc =
      if crosses side price k.price = true then
        matchLoop f side price id
          (matchAtPriceLevel ob (oppositeSide side) k.price qty id acc).1
          (matchAtPriceLevel ob (oppositeSide side) k.price qty id acc).2.1
          (matchAtPriceLevel ob (oppositeSide side) k.price qty id acc).2.2
      else (qty, ob, acc) := by
  cases side <;> simp only [oppBook] at hopp <;>
    simp [matchLoop, hq, hopp, crosses, oppositeSide]

/-! ### Structural lemmas about `matchLoop` -/

theorem matchLoop_conserve (side : Side) (price id : Nat) : ∀ fuel qty (ob : OrderBook) acc,
    (matchLoop fuel side price id qty ob acc).1 +
      (((matchLoop fuel side price id qty ob acc).2.2).map Trade.quantity).sum =
    qty + ((acc.map Trade.quantity).sum) := by
  intro fuel
  induction fuel with
  | zero => intro qty ob acc; simp [matchLoop_zero_fuel]
  | succ f ih =>
    intro qty ob acc
    by_cases hq : 0 < qty
    · cases hopp : oppBook ob side with
      | nil => rw [matchLoop_succ_nil f side price id qty ob acc hopp]
      | cons e t =>
        cases e with
        | mk k q =>
          rw [matchLoop_succ_cons f side price id qty ob acc hq k q t hopp]
          by_cases hc : crosses side price k.price = true
          · rw [if_pos hc, ih]
            exact matchAtPriceLevel_conserve ob (oppositeSide side) k.price qty id acc
          · rw [if_neg hc]
    · have hq0 : qty = 0 := by omega
      subst hq0
      rw [matchLoop_zero_qty]

theorem matchLoop_qty_le (side : Side) (price id : Nat) : ∀ fuel qty (ob : OrderBook) acc,
    (matchLoop fuel side price id qty ob acc).1 ≤ qty := by
  intro fuel
  induction fuel with
  | zero => intro qty ob acc; simp [matchLoop_zero_fuel]
  | succ f ih =>
    intro qty ob acc
    by_cases hq : 0 < qty
    · cases hopp : oppBook ob side with
      | nil => rw [matchLoop_succ_nil f side price id qty ob acc hopp]
      | cons e t =>
        cases e with
        | mk k q =>
          rw [matchLoop_succ_cons f side price id qty ob acc hq k q t hopp]
          by_cases hc : crosses side price k.price = true
          · rw [if_pos hc]
            exact le_trans (ih _ _ _)
              (matchAtPriceLevel_qty_le ob (oppositeSide side) k.price qty id acc)
          · rw [if_neg hc]
    · have hq0 : qty = 0 := by omega
      subst hq0
      rw [matchLoop_zero_qty]

theorem matchLoop_acc (side : Side) (price id : Nat) : ∀ fuel qty (ob : OrderBook) acc,
    matchLoop fuel side price id qty ob acc =
      ((matchLoop fuel side price id qty ob []).1,
       (matchLoop fuel side price id qty ob []).2.1,
       acc ++ (matchLoop fuel side price id qty ob []).2.2) := by
  intro fuel
  induction fuel with
  | zero => intro qty ob acc; simp [matchLoop_zero_fuel]
  | succ f ih =>
    intro qty ob acc
    by_cases hq : 0 < qty
    · cases hopp : oppBook ob side with
      | nil =>
        rw [matchLoop_succ_nil f side price id qty ob acc hopp,
          matchLoop_succ_nil f side price id qty ob [] hopp]
        simp
      | cons e t =>
        cases e with
        | mk k q =>
          rw [matchLoop_succ_cons f side price id qty ob acc hq k q t hopp,
            matchLoop_succ_cons f side price id qty ob [] hq k q t hopp]
          by_cases hc : crosses side price k.price = true
          · rw [if_pos hc, if_pos hc]
            rw [matchAtPriceLevel_acc ob (oppositeSide side) k.price qty id acc]
            rw [ih ((matchAtPriceLevel ob (oppositeSide side) k.price qty id []).1)
              ((matchAtPriceLevel ob (oppositeSide side) k.price qty id []).2.1)
              (acc ++ (matchAtPriceLevel ob (oppositeSide side) k.price qty id []).2.2)]
            rw [ih ((matchAtPriceLevel ob (oppositeSide side) k.price qty id []).1)
              ((matchAtPriceLevel ob (oppositeSide side) k.price qty id []).2.1)
              ((matchAtPriceLevel ob (oppositeSide side) k.price qty id []).2.2)]
            simp
          · rw [if_neg hc, if_neg hc]
            simp
    · have hq0 : qty = 0 := by omega
      subst hq0
      rw [matchLoop_zero_qty, matchLoop_zero_qty]
      simp

theorem matchLoop_own_side (side : Side) (price id : Nat) : ∀ fuel qty (ob : OrderBook) acc,
    sideBook (matchLoop fuel side price id qty ob acc).2.1 side = sideBook ob side := by
  intro fuel
  induction fuel with
  | zero => intro qty ob acc; simp [matchLoop_zero_fuel]
  | succ f ih =>
    intro qty ob acc
    by_cases hq : 0 < qty
    · cases hopp : oppBook ob side with
      | nil => rw [matchLoop_succ_nil f side price id qty ob acc hopp]
      | cons e t =>
        cases e with
        | mk k q =>
          rw [matchLoop_succ_cons f side price id qty ob acc hq k q t hopp]
          by_cases hc : crosses side price k.price = true
          · rw [if_pos hc, ih]
            have hhd : sideBook ob (oppositeSide side) = (k, q) :: t := by
              rw [← oppBook_sideBook]; exact hopp
            rw [matchAtPriceLevel_head ob (oppositeSide side) qty id acc k q t hhd]
            exact sideBook_withSideBook_opp ob side _
          · rw [if_neg hc]
    · have hq0 : qty = 0 := by omega
      subst hq0
      rw [matchLoop_zero_qty]

theorem matchLoop_opp_keys_suffix (side : Side) (price id : Nat) :
    ∀ fuel qty (ob : OrderBook) acc,
    List.IsSuffix ((oppBook (matchLoop fuel side price id qty ob acc).2.1 side).map Prod.fst)
      ((oppBook ob side).map Prod.fst) := by
  intro fuel
  induction fuel with
  | zero => intro qty ob acc; simp [matchLoop_zero_fuel]
  | succ f ih =>
    intro qty ob acc
    by_cases hq : 0 < qty
    · cases hopp : oppBook ob side with
      | nil =>
        rw [matchLoop_succ_nil f side price id qty ob acc hopp]
        simp [hopp]
      | cons e t =>
        cases e with
        | mk k q =>
          rw [matchLoop_succ_cons f side price id qty ob acc hq k q t hopp]
          by_cases hc : crosses side price k.price = true
          · rw [if_pos hc]
            have hhd : sideBook ob (oppositeSide side) = (k, q) :: t := by
              rw [← oppBook_sideBook]; exact hopp
            rw [matchAtPriceLevel_head ob (oppositeSide side) qty id acc k q t hhd]
            refine List.IsSuffix.trans (ih _ _ _) ?_
            rw [oppBook_withSideBook_opp]
            by_cases hnil : (fillQueue k.price id (qty + q.length + 1) qty q acc).2.1 = []
            · rw [if_pos hnil]
              simp only [List.map_cons]
              exact (List.suffix_cons _ _).trans (List.suffix_refl _)
            · rw [if_neg hnil]
              simp
          · rw [if_neg hc]
            have h2 : oppBook (qty, ob, acc).2.1 side = (k, q) :: t := hopp
            rw [h2]
    · have hq0 : qty = 0 := by omega
      subst hq0
      rw [matchLoop_zero_qty]

theorem matchAtPriceLevel_trade_fields (ob : OrderBook) (bside : Side) (price qty tid : Nat)
    (acc : List Trade) :
    ∀ tr ∈ (matchAtPriceLevel ob bside price qty tid acc).2.2,
      tr ∈ acc ∨ (tr.price = price ∧ tr.taker_id = tid) := by
  cases hfind : bmapFind ⟨price, bside⟩ (sideBook ob bside) with
  | none =>
    rw [matchAtPriceLevel_none ob bside price qty tid acc hfind]
    intro tr htr
    exact Or.inl htr
  | some orders =>
    rw [matchAtPriceLevel_some ob bside price qty tid acc orders hfind]
    intro tr htr
    exact fillQueue_trade_fields price tid (qty + orders.length + 1) qty orders acc tr htr

theorem matchLoop_crossing (side : Side) (price id : Nat) : ∀ fuel qty (ob : OrderBook) acc,
    (∀ tr ∈ acc, crosses side price tr.price = true) →
    ∀ tr ∈ (matchLoop fuel side price id qty ob acc).2.2, crosses side price tr.price = true := by
  intro fuel
  induction fuel with
  | zero => intro qty ob acc hacc; simpa [matchLoop_zero_fuel] using hacc
  | succ f ih =>
    intro qty ob acc hacc
    by_cases hq : 0 < qty
    · cases hopp : oppBook ob side with
      | nil =>
        rw [matchLoop_succ_nil f side price id qty ob acc hopp]
        exact hacc
      | cons e t =>
        cases e with
        | mk k q =>
          rw [matchLoop_succ_cons f side price id qty ob acc hq k q t hopp]
          by_cases hc : crosses side price k.price = true
          · rw [if_pos hc]
            refine ih _ _ _ ?_
            intro tr htr
            rcases matchAtPriceLevel_trade_fields ob (oppositeSide side) k.price qty id acc
              tr htr with h1 | h1
            · exact hacc tr h1
            · rw [h1.1]
              exact hc
          · rw [if_neg hc]
            exact hacc
    · have hq0 : qty = 0 := by omega
      subst hq0
      rw [matchLoop_zero_qty]
      exact hacc

theorem matchStep_opp (side : Side) (ob : OrderBook) (qty id : Nat) (acc : List Trade)
    (k : PriceLevel) (q : Queue) (t : BMap) (hopp : oppBook ob side = (k, q) :: t) :
    oppBook (matchAtPriceLevel ob (oppositeSide side) k.price qty id acc).2.1 side =
      (if (fillQueue k.price id (qty + q.length + 1) qty q acc).2.1 = [] then t
       else (k, (fillQueue k.price id (qty + q.length + 1) qty q acc).2.1) :: t) ∧
    (matchAtPriceLevel ob (oppositeSide side) k.price qty id acc).1 =
      (fillQueue k.price id (qty + q.length + 1) qty q acc).1 ∧
    sideBook (matchAtPriceLevel ob (oppositeSide side) k.price qty id acc).2.1 side =
      sideBook ob side ∧
    (matchAtPriceLevel ob (oppositeSide side) k.price qty id acc).2.2 =
      (fillQueue k.price id (qty + q.length + 1) qty q acc).2.2 := by
  have hhd : sideBook ob (oppositeSide side) = (k, q) :: t := by
    rw [← oppBook_sideBook]; exact hopp
  rw [matchAtPriceLevel_head ob (oppositeSide side) qty id acc k q t hhd]
  exact ⟨oppBook_withSideBook_opp ob side _, rfl, sideBook_withSideBook_opp ob side _, rfl⟩

theorem matchLoop_terminal (side : Side) (price id : Nat) : ∀ fuel qty (ob : OrderBook) acc,
    (oppBook ob side).length + 1 ≤ fuel →
    LoopDone side price (matchLoop fuel side price id qty ob acc).1
      (matchLoop fuel side price id qty ob acc).2.1 := by
  intro fuel
  induction fuel with
  | zero => intro qty ob acc h; omega
  | succ f ih =>
    intro qty ob acc h
    by_cases hq : 0 < qty
    · cases hopp : oppBook ob side with
      | nil =>
        rw [matchLoop_succ_nil f side price id qty ob acc hopp]
        right; left
        exact hopp
      | cons e t =>
        cases e with
        | mk k q =>
          rw [matchLoop_succ_cons f side price id qty ob acc hq k q t hopp]
          by_cases hc : crosses side price k.price = true
          · rw [if_pos hc]
            obtain ⟨hso, hsq, _, _⟩ := matchStep_opp side ob qty id acc k q t hopp
            rcases fillQueue_terminal k.price id (qty + q.length + 1) qty q acc (le_refl _)
              with h0 | hnil
            · have hz : (matchAtPriceLevel ob (oppositeSide side) k.price qty id acc).1 = 0 := by
                rw [hsq]; exact h0
              rw [hz, matchLoop_zero_qty]
              left
              rfl
            · refine ih _ _ _ ?_
              rw [hso, if_pos hnil]
              rw [hopp] at h
              simp only [List.length_cons] at h
              omega
          · rw [if_neg hc]
            right; right
            intro k' q' rest' heq
            have heq2 : (k, q) :: t = (k', q') :: rest' := by
              rw [← hopp]
              exact heq
            have hk : k = k' := by
              injection heq2 with h1 h2
              injection h1 with hk2 hq2
            subst hk
            simpa using hc
    · have hq0 : qty = 0 := by omega
      subst hq0
      rw [matchLoop_zero_qty]
      left
      rfl

theorem matchLoop_opp_WF (side : Side) (price id : Nat) : ∀ fuel qty (ob : OrderBook) acc,
    MapOrdered (oppBook ob side) → MapSide (oppositeSide side) (oppBook ob side) →
    MapQueuesWF (oppBook ob side) →
    MapOrdered (oppBook (matchLoop fuel side price id qty ob acc).2.1 side) ∧
    MapSide (oppositeSide side) (oppBook (matchLoop fuel side price id qty ob acc).2.1 side) ∧
    MapQueuesWF (oppBook (matchLoop fuel side price id qty ob acc).2.1 side) := by
  intro fuel
  induction fuel with
  | zero => intro qty ob acc h1 h2 h3; exact ⟨h1, h2, h3⟩
  | succ f ih =>
    intro qty ob acc h1 h2 h3
    by_cases hq : 0 < qty
    · cases hopp : oppBook ob side with
      | nil =>
        rw [matchLoop_succ_nil f side price id qty ob acc hopp]
        exact ⟨h1, h2, h3⟩
      | cons e t =>
        cases e with
        | mk k q =>
          rw [matchLoop_succ_cons f side price id qty ob acc hq k q t hopp]
          rw [hopp] at h1 h2 h3
          by_cases hc : crosses side price k.price = true
          · rw [if_pos hc]
            obtain ⟨hso, _, _, _⟩ := matchStep_opp side ob qty id acc k q t hopp
            refine ih _ _ _ ?_ ?_ ?_ <;> rw [hso] <;>
              by_cases hnil : (fillQueue k.price id (qty + q.length + 1) qty q acc).2.1 = []
            · rw [if_pos hnil]
              exact (List.pairwise_cons.mp h1).2
            · rw [if_neg hnil]
              refine List.pairwise_cons.mpr ⟨?_, (List.pairwise_cons.mp h1).2⟩
              exact (List.pairwise_cons.mp h1).1
            · rw [if_pos hnil]
              intro e he
              exact h2 e (List.mem_cons_of_mem _ he)
            · rw [if_neg hnil]
              intro e he
              rcases List.mem_cons.mp he with h4 | h4
              · subst h4
                exact h2 (k, q) (List.mem_cons_self _ _)
              · exact h2 e (List.mem_cons_of_mem _ h4)
            · rw [if_pos hnil]
              intro e he
              exact h3 e (List.mem_cons_of_mem _ he)
            · rw [if_neg hnil]
              intro e he
              rcases List.mem_cons.mp he with h4 | h4
              · subst h4
                refine ⟨hnil, ?_⟩
                exact fillQueue_pos k.price id (qty + q.length + 1) qty q acc
                  (h3 (k, q) (List.mem_cons_self _ _)).2
              · exact h3 e (List.mem_cons_of_mem _ h4)
          · rw [if_neg hc]
            have hg : oppBook (qty, ob, acc).2.1 side = (k, q) :: t := hopp
            rw [hg]
            exact ⟨h1, h2, h3⟩
    · have hq0 : qty = 0 := by omega
      subst hq0
      rw [matchLoop_zero_qty]
      exact ⟨h1, h2, h3⟩

theorem matchLoop_untouched (side : Side) (price id : Nat) : ∀ fuel qty (ob : OrderBook) acc,
    ∀ k' : PriceLevel, crosses side price k'.price = false →
    bmapFind k' (oppBook (matchLoop fuel side price id qty ob acc).2.1 side) =
      bmapFind k' (oppBook ob side) := by
  intro fuel
  induction fuel with
  | zero => intro qty ob acc k' hk; rfl
  | succ f ih =>
    intro qty ob acc k' hk
    by_cases hq : 0 < qty
    · cases hopp : oppBook ob side with
      | nil =>
        rw [matchLoop_succ_nil f side price id qty ob acc hopp]
        have hg : oppBook (qty, ob, acc).2.1 side = [] := hopp
        rw [hg]
      | cons e t =>
        cases e with
        | mk k q =>
          rw [matchLoop_succ_cons f side price id qty ob acc hq k q t hopp]
          by_cases hc : crosses side price k.price = true
          · rw [if_pos hc]
            obtain ⟨hso, _, _, _⟩ := matchStep_opp side ob qty id acc k q t hopp
            have hne : PriceLevel.cmp k' k ≠ Ordering.eq := by
              intro habs
              have hpp : k'.price = k.price := (cmp_eq_iff k' k).mp habs
              rw [← hpp] at hc
              rw [hk] at hc
              exact Bool.false_ne_true hc
            rw [ih _ _ _ k' hk, hso]
            by_cases hnil : (fillQueue k.price id (qty + q.length + 1) qty q acc).2.1 = []
            · rw [if_pos hnil]
              simp [bmapFind, hne]
            · rw [if_neg hnil]
              simp [bmapFind, hne]
          · rw [if_neg hc]
            have h2 : oppBook (qty, ob, acc).2.1 side = (k, q) :: t := hopp
            rw [h2]
    · have hq0 : qty = 0 := by omega
      subst hq0
      rw [matchLoop_zero_qty]

theorem matchLoop_erase (side : Side) (price id : Nat) : ∀ fuel qty (ob : OrderBook) acc,
    matchLoop fuel side price id qty (eraseTimes ob) acc =
      ((matchLoop fuel side price id qty ob acc).1,
       eraseTimes (matchLoop fuel side price id qty ob acc).2.1,
       (matchLoop fuel side price id qty ob acc).2.2) := by
  intro fuel
  induction fuel with
  | zero => intro qty ob acc; rfl
  | succ f ih =>
    intro qty ob acc
    by_cases hq : 0 < qty
    · cases hopp : oppBook ob side with
      | nil =>
        have hopp2 : oppBook (eraseTimes ob) side = [] := by
          rw [oppBook_erase, hopp]
          rfl
        rw [matchLoop_succ_nil f side price id qty ob acc hopp,
          matchLoop_succ_nil f side price id qty (eraseTimes ob) acc hopp2]
      | cons e t =>
        cases e with
        | mk k q =>
          have hopp2 : oppBook (eraseTimes ob) side = (k, eraseTimesQ q) :: eraseTimesB t := by
            rw [oppBook_erase, hopp]
            rfl
          rw [matchLoop_succ_cons f side price id qty ob acc hq k q t hopp,
            matchLoop_succ_cons f side price id qty (eraseTimes ob) acc hq k
              (eraseTimesQ q) (eraseTimesB t) hopp2]
          by_cases hc : crosses side price k.price = true
          · rw [if_pos hc, if_pos hc]
            rw [matchAtPriceLevel_erase ob (oppositeSide side) k.price qty id acc]
            exact ih _ _ _
          · rw [if_neg hc, if_neg hc]
    · have hq0 : qty = 0 := by omega
      subst hq0
      simp [matchLoop_zero_qty]

theorem noWorse_refl (side : Side) (p : Nat) : noWorse side p p := by
  cases side <;> simp [noWorse]

theorem noWorse_trans (side : Side) (a b c : Nat) (h1 : noWorse side a b) (h2 : noWorse side b c) :
    noWorse side a c := by
  cases side <;> simp [noWorse] at h1 h2 ⊢ <;> omega

theorem pairwise_of_all_eq {R : Nat → Nat → Prop} (c : Nat) (hc : R c c) :
    ∀ l : List Nat, (∀ x ∈ l, x = c) → l.Pairwise R := by
  intro l
  induction l with
  | nil => intro h; exact List.Pairwise.nil
  | cons x xs ih =>
    intro h
    refine List.pairwise_cons.mpr ⟨?_, ih fun y hy => h y (List.mem_cons_of_mem _ hy)⟩
    intro y hy
    rw [h x (List.mem_cons_self _ _), h y (List.mem_cons_of_mem _ hy)]
    exact hc

theorem cmp_lt_noWorse (side : Side) (k k' : PriceLevel)
    (hside : k.side = oppositeSide side) (hlt : PriceLevel.cmp k k' = Ordering.lt) :
    noWorse side k.price k'.price := by
  cases side
  · have := (cmp_lt_sell k k' hside).mp hlt
    simpa [noWorse] using Nat.le_of_lt this
  · have := (cmp_lt_buy k k' hside).mp hlt
    simpa [noWorse] using Nat.le_of_lt this

theorem matchLoop_best_first (side : Side) (price id : Nat) : ∀ fuel qty (ob : OrderBook),
    MapOrdered (oppBook ob side) → MapSide (oppositeSide side) (oppBook ob side) →
    List.Pairwise (noWorse side) (((matchLoop fuel side price id qty ob []).2.2).map Trade.price) ∧
    (∀ k0 q0 t0, oppBook ob side = (k0, q0) :: t0 →
      ∀ pr ∈ ((matchLoop fuel side price id qty ob []).2.2).map Trade.price,
        noWorse side k0.price pr) := by
  intro fuel
  induction fuel with
  | zero =>
    intro qty ob h1 h2
    exact ⟨List.Pairwise.nil, fun k0 q0 t0 hh pr hpr => absurd hpr (by simp [matchLoop_zero_fuel])⟩
  | succ f ih =>
    intro qty ob h1 h2
    by_cases hq : 0 < qty
    · cases hopp : oppBook ob side with
      | nil =>
        rw [matchLoop_succ_nil f side price id qty ob [] hopp]
        exact ⟨List.Pairwise.nil, fun k0 q0 t0 hh pr hpr => absurd hpr (by simp)⟩
      | cons e t =>
        cases e with
        | mk k q =>
          rw [hopp] at h1 h2
          rw [matchLoop_succ_cons f side price id qty ob [] hq k q t hopp]
          by_cases hc : crosses side price k.price = true
          · rw [if_pos hc]
            obtain ⟨hso, _, _, _⟩ :=
              matchStep_opp side ob qty id ([] : List Trade) k q t hopp
            have hfieldsA : ∀ tr ∈ (matchAtPriceLevel ob (oppositeSide side) k.price qty id
                ([] : List Trade)).2.2, tr.price = k.price := by
              intro tr htr
              rcases matchAtPriceLevel_trade_fields ob (oppositeSide side) k.price qty id
                [] tr htr with hf | hf
              · exact absurd hf (List.not_mem_nil _)
              · exact hf.1
            have hordA : MapOrdered (oppBook (matchAtPriceLevel ob (oppositeSide side)
                k.price qty id ([] : List Trade)).2.1 side) := by
              rw [hso]
              by_cases hnil : (fillQueue k.price id (qty + q.length + 1) qty q
                  ([] : List Trade)).2.1 = []
              · rw [if_pos hnil]
                exact (List.pairwise_cons.mp h1).2
              · rw [if_neg hnil]
                exact List.pairwise_cons.mpr
                  ⟨(List.pairwise_cons.mp h1).1, (List.pairwise_cons.mp h1).2⟩
            have hsideA : MapSide (oppositeSide side) (oppBook (matchAtPriceLevel ob
                (oppositeSide side) k.price qty id ([] : List Trade)).2.1 side) := by
              rw [hso]
              by_cases hnil : (fillQueue k.price id (qty + q.length + 1) qty q
                  ([] : List Trade)).2.1 = []
              · rw [if_pos hnil]
                intro e he
                exact h2 e (List.mem_cons_of_mem _ he)
              · rw [if_neg hnil]
                intro e he
                rcases List.mem_cons.mp he with h4 | h4
                · subst h4
                  exact h2 (k, q) (List.mem_cons_self _ _)
                · exact h2 e (List.mem_cons_of_mem _ h4)
            have hIH := ih (matchAtPriceLevel ob (oppositeSide side) k.price qty id
              ([] : List Trade)).1 (matchAtPriceLevel ob (oppositeSide side) k.price qty id
              ([] : List Trade)).2.1 hordA hsideA
            have hboundW : ∀ pr ∈ ((matchLoop f side price id
                (matchAtPriceLevel ob (oppositeSide side) k.price qty id ([] : List Trade)).1
                (matchAtPriceLevel ob (oppositeSide side) k.price qty id ([] : List Trade)).2.1
                []).2.2).map Trade.price, noWorse side k.price pr := by
              intro pr hpr
              rcases hopp2 : oppBook (matchAtPriceLevel ob (oppositeSide side) k.price qty id
                  ([] : List Trade)).2.1 side with _ | ⟨⟨k1, q1⟩, t1⟩
              · rw [matchLoop_opp_nil side price id f _ _ [] hopp2] at hpr
                exact absurd hpr (by simp)
              · have hb := hIH.2 k1 q1 t1 hopp2 pr hpr
                rw [hso] at hopp2
                by_cases hnil : (fillQueue k.price id (qty + q.length + 1) qty q
                    ([] : List Trade)).2.1 = []
                · rw [if_pos hnil] at hopp2
                  have hrel : PriceLevel.cmp k k1 = Ordering.lt := by
                    have := (List.pairwise_cons.mp h1).1 (k1, q1)
                    rw [hopp2] at this
                    exact this (List.mem_cons_self _ _)
                  exact noWorse_trans side _ _ _
                    (cmp_lt_noWorse side k k1 (h2 (k, q) (List.mem_cons_self _ _)) hrel) hb
                · rw [if_neg hnil] at hopp2
                  have hk1 : k = k1 := by
                    injection hopp2 with hh1 hh2
                    injection hh1 with hh3 hh4
                  rw [hk1]
                  exact hb
            rw [matchLoop_acc side price id f
              (matchAtPriceLevel ob (oppositeSide side) k.price qty id ([] : List Trade)).1
              (matchAtPriceLevel ob (oppositeSide side) k.price qty id ([] : List Trade)).2.1
              (matchAtPriceLevel ob (oppositeSide side) k.price qty id ([] : List Trade)).2.2]
            constructor
            · simp only [List.map_append]
              rw [List.pairwise_append]
              refine ⟨?_, hIH.1, ?_⟩
              · refine pairwise_of_all_eq k.price (noWorse_refl side k.price) _ ?_
                intro x hx
                rcases List.mem_map.mp hx with ⟨tr, htr, hxe⟩
                rw [← hxe]
                exact hfieldsA tr htr
              · intro x hx y hy
                rcases List.mem_map.mp hx with ⟨tr, htr, hxe⟩
                rw [← hxe, hfieldsA tr htr]
                exact hboundW y hy
            · intro k0 q0 t0 hh pr hpr
              have hk0 : k0 = k := by
                have : (k, q) :: t = (k0, q0) :: t0 := hh
                injection this with hh1 hh2
                injection hh1 with hh3 hh4
                exact hh3.symm
              subst hk0
              simp only [List.map_append] at hpr
              rcases List.mem_append.mp hpr with hx | hx
              · rcases List.mem_map.mp hx with ⟨tr, htr, hxe⟩
                rw [← hxe, hfieldsA tr htr]
                exact noWorse_refl side _
              · exact hboundW pr hx
          · rw [if_neg hc]
            exact ⟨List.Pairwise.nil, fun k0 q0 t0 hh pr hpr => absurd hpr (by simp)⟩
    · have hq0 : qty = 0 := by omega
      subst hq0
      rw [matchLoop_zero_qty]
      exact ⟨List.Pairwise.nil, fun k0 q0 t0 hh pr hpr => absurd hpr (by simp)⟩

/-! ### Facts about `bmapPushBack` -/

theorem cmp_gt_flip (k k0 : PriceLevel) (h : k.side = k0.side)
    (hgt : PriceLevel.cmp k k0 = Ordering.gt) : PriceLevel.cmp k0 k = Ordering.lt := by
  cases hs : k.side
  · exact (cmp_lt_buy k0 k (h ▸ hs)).mpr ((cmp_gt_buy k k0 hs).mp hgt)
  · exact (cmp_lt_sell k0 k (h ▸ hs)).mpr ((cmp_gt_sell k k0 hs).mp hgt)

theorem cmp_lt_trans (a b c : PriceLevel) (hab : a.side = b.side)
    (h1 : PriceLevel.cmp a b = Ordering.lt) (h2 : PriceLevel.cmp b c = Ordering.lt) :
    PriceLevel.cmp a c = Ordering.lt := by
  cases hs : a.side
  · have hb : b.side = Side.Buy := hab ▸ hs
    have x1 := (cmp_lt_buy a b hs).mp h1
    have x2 := (cmp_lt_buy b c hb).mp h2
    exact (cmp_lt_buy a c hs).mpr (lt_trans x2 x1)
  · have hb : b.side = Side.Sell := hab ▸ hs
    have x1 := (cmp_lt_sell a b hs).mp h1
    have x2 := (cmp_lt_sell b c hb).mp h2
    exact (cmp_lt_sell a c hs).mpr (lt_trans x1 x2)

theorem bmapFind_eq_none (k : PriceLevel) : ∀ b : BMap,
    (∀ e ∈ b, PriceLevel.cmp k e.1 ≠ Ordering.eq) → bmapFind k b = none := by
  intro b
  induction b with
  | nil => intro h; rfl
  | cons e rest ih =>
    intro h
    cases e with
    | mk k0 q0 =>
      have hne := h (k0, q0) (List.mem_cons_self _ _)
      simp only [bmapFind, if_neg hne]
      exact ih fun e he => h e (List.mem_cons_of_mem _ he)

theorem bmapPushBack_mem_keys (k : PriceLevel) (o : Order) : ∀ b : BMap,
    ∀ e ∈ bmapPushBack k o b, e.1 = k ∨ ∃ e0 ∈ b, e.1 = e0.1 := by
  intro b
  induction b with
  | nil =>
    intro e he
    simp only [bmapPushBack, List.mem_singleton] at he
    subst he
    exact Or.inl rfl
  | cons e0 rest ih =>
    intro e he
    cases e0 with
    | mk k0 q0 =>
      simp only [bmapPushBack] at he
      cases hcmp : PriceLevel.cmp k k0 with
      | lt =>
        rw [hcmp] at he
        rcases List.mem_cons.mp he with h1 | h1
        · subst h1; exact Or.inl rfl
        · exact Or.inr ⟨_, h1, rfl⟩
      | eq =>
        rw [hcmp] at he
        rcases List.mem_cons.mp he with h1 | h1
        · subst h1
          exact Or.inr ⟨(k0, q0), List.mem_cons_self _ _, rfl⟩
        · exact Or.inr ⟨e, List.mem_cons_of_mem _ h1, rfl⟩
      | gt =>
        rw [hcmp] at he
        rcases List.mem_cons.mp he with h1 | h1
        · subst h1
          exact Or.inr ⟨(k0, q0), List.mem_cons_self _ _, rfl⟩
        · rcases ih e h1 with h2 | ⟨e0, he0, h2⟩
          · exact Or.inl h2
          · exact Or.inr ⟨e0, List.mem_cons_of_mem _ he0, h2⟩

theorem bmapPushBack_side (k : PriceLevel) (o : Order) (s : Side) (hk : k.side = s) :
    ∀ b : BMap, MapSide s b → MapSide s (bmapPushBack k o b) := by
  intro b hb e he
  rcases bmapPushBack_mem_keys k o b e he with h1 | ⟨e0, he0, h1⟩
  · rw [h1]; exact hk
  · rw [h1]; exact hb e0 he0

theorem bmapPushBack_ordered (k : PriceLevel) (o : Order) (s : Side) (hk : k.side = s) :
    ∀ b : BMap, MapSide s b → MapOrdered b → MapOrdered (bmapPushBack k o b) := by
  intro b
  induction b with
  | nil => intro hside hord; simp [bmapPushBack, MapOrdered]
  | cons e0 rest ih =>
    intro hside hord
    cases e0 with
    | mk k0 q0 =>
      have hk0 : k0.side = s := hside (k0, q0) (List.mem_cons_self _ _)
      obtain ⟨hhead, htail⟩ := List.pairwise_cons.mp hord
      simp only [bmapPushBack]
      cases hcmp : PriceLevel.cmp k k0 with
      | lt =>
        refine List.pairwise_cons.mpr ⟨?_, hord⟩
        intro e he
        rcases List.mem_cons.mp he with h1 | h1
        · subst h1; exact hcmp
        · exact cmp_lt_trans k (k0, q0).1 e.1 (by rw [hk, hk0]) hcmp (hhead e h1)
      | eq =>
        exact List.pairwise_cons.mpr ⟨hhead, htail⟩
      | gt =>
        refine List.pairwise_cons.mpr ⟨?_, ih (fun e he => hside e (List.mem_cons_of_mem _ he)) htail⟩
        intro e he
        rcases bmapPushBack_mem_keys k o rest e he with h1 | ⟨e1, he1, h1⟩
        · rw [h1]
          exact cmp_gt_flip k k0 (by rw [hk, hk0]) hcmp
        · rw [h1]
          exact hhead e1 he1

theorem bmapPushBack_queues (k : PriceLevel) (o : Order) (ho : 0 < o.quantity) :
    ∀ b : BMap, MapQueuesWF b → MapQueuesWF (bmapPushBack k o b) := by
  intro b
  induction b with
  | nil =>
    intro hb e he
    simp only [bmapPushBack, List.mem_singleton] at he
    subst he
    exact ⟨by simp, fun o' ho' => by rw [List.mem_singleton.mp ho']; exact ho⟩
  | cons e0 rest ih =>
    intro hb e he
    cases e0 with
    | mk k0 q0 =>
      simp only [bmapPushBack] at he
      cases hcmp : PriceLevel.cmp k k0 with
      | lt =>
        rw [hcmp] at he
        rcases List.mem_cons.mp he with h1 | h1
        · subst h1
          exact ⟨by simp, fun o' ho' => by rw [List.mem_singleton.mp ho']; exact ho⟩
        · exact hb e h1
      | eq =>
        rw [hcmp] at he
        rcases List.mem_cons.mp he with h1 | h1
        · subst h1
          refine ⟨by simp, fun o' ho' => ?_⟩
          rcases List.mem_append.mp ho' with h2 | h2
          · exact (hb (k0, q0) (List.mem_cons_self _ _)).2 o' h2
          · rw [List.mem_singleton.mp h2]; exact ho
        · exact hb e (List.mem_cons_of_mem _ h1)
      | gt =>
        rw [hcmp] at he
        rcases List.mem_cons.mp he with h1 | h1
        · subst h1
          exact hb (k0, q0) (List.mem_cons_self _ _)
        · exact ih (fun e2 he2 => hb e2 (List.mem_cons_of_mem _ he2)) e h1

theorem bmapPushBack_head_price (k : PriceLevel) (o : Order) : ∀ b : BMap,
    ((bmapPushBack k o b).head?.map fun e => e.1.price) = some k.price ∨
    ((bmapPushBack k o b).head?.map fun e => e.1.price) = (b.head?.map fun e => e.1.price) := by
  intro b
  cases b with
  | nil => left; rfl
  | cons e0 rest =>
    cases e0 with
    | mk k0 q0 =>
      simp only [bmapPushBack]
      cases hcmp : PriceLevel.cmp k k0 with
      | lt => left; rfl
      | eq =>
        left
        have : k.price = k0.price := (cmp_eq_iff k k0).mp hcmp
        simp [this]
      | gt => right; rfl

theorem bmapPushBack_find (k : PriceLevel) (o : Order) (s : Side) (hk : k.side = s) :
    ∀ b : BMap, MapSide s b → MapOrdered b →
    bmapFind k (bmapPushBack k o b) = some ((bmapFind k b).getD [] ++ [o]) := by
  intro b
  induction b with
  | nil =>
    intro hside hord
    simp [bmapPushBack, bmapFind, (cmp_eq_iff k k).mpr rfl]
  | cons e0 rest ih =>
    intro hside hord
    cases e0 with
    | mk k0 q0 =>
      have hk0 : k0.side = s := hside (k0, q0) (List.mem_cons_self _ _)
      obtain ⟨hhead, htail⟩ := List.pairwise_cons.mp hord
      simp only [bmapPushBack]
      cases hcmp : PriceLevel.cmp k k0 with
      | lt =>
        have hrest : bmapFind k rest = none := by
          refine bmapFind_eq_none k rest ?_
          intro e he habs
          have hep : k.price = e.1.price := (cmp_eq_iff k e.1).mp habs
          have h2 : PriceLevel.cmp k e.1 = Ordering.lt :=
            cmp_lt_trans k (k0, q0).1 e.1 (by rw [hk, hk0]) hcmp (hhead e he)
          rw [habs] at h2
          exact Ordering.noConfusion h2
        have hne : PriceLevel.cmp k k0 ≠ Ordering.eq := by rw [hcmp]; intro h; exact Ordering.noConfusion h
        simp [bmapFind, (cmp_eq_iff k k).mpr rfl, hne, hrest]
      | eq =>
        simp [bmapFind, hcmp]
      | gt =>
        have hne : PriceLevel.cmp k k0 ≠ Ordering.eq := by rw [hcmp]; intro h; exact Ordering.noConfusion h
        simp only [bmapFind, if_neg hne]
        exact ih (fun e he => hside e (List.mem_cons_of_mem _ he)) htail

theorem bmapPushBack_erase (k : PriceLevel) (o : Order) : ∀ b : BMap,
    bmapPushBack k (eraseTime o) (eraseTimesB b) = eraseTimesB (bmapPushBack k o b) := by
  intro b
  induction b with
  | nil => rfl
  | cons e0 rest ih =>
    cases e0 with
    | mk k0 q0 =>
      simp only [eraseTimesB, List.map_cons, bmapPushBack]
      cases hcmp : PriceLevel.cmp k k0 with
      | lt => simp [eraseTimesB, eraseTimesQ]
      | eq => simp [eraseTimesB, eraseTimesQ]
      | gt =>
        simp only [eraseTimesB, eraseTimesQ] at ih
        simp [eraseTimesB, eraseTimesQ, ih]

/-! ### Lemmas about `place_order` and `add_to_book` -/

theorem place_order_trades (ob : OrderBook) (side : Side) (price quantity id now : Nat) :
    (place_order ob side price quantity id now).2 =
      (matchLoop (placeFuel ob side quantity) side price id quantity ob []).2.2 := by
  simp only [place_order]
  by_cases h : 0 < (matchLoop (placeFuel ob side quantity) side price id quantity ob []).1 <;>
    simp [h]

theorem place_order_book (ob : OrderBook) (side : Side) (price quantity id now : Nat) :
    (place_order ob side price quantity id now).1 =
      if 0 < (matchLoop (placeFuel ob side quantity) side price id quantity ob []).1 then
        add_to_book (matchLoop (placeFuel ob side quantity) side price id quantity ob []).2.1
          side
          ⟨id, price, (matchLoop (placeFuel ob side quantity) side price id quantity ob []).1,
            now⟩
      else (matchLoop (placeFuel ob side quantity) side price id quantity ob []).2.1 := by
  simp only [place_order]
  by_cases h : 0 < (matchLoop (placeFuel ob side quantity) side price id quantity ob []).1 <;>
    simp [h]

theorem add_to_book_sideBook (ob : OrderBook) (side : Side) (o : Order) :
    sideBook (add_to_book ob side o) side =
      bmapPushBack ⟨o.price, side⟩ o (sideBook ob side) := by
  cases side <;> rfl

theorem add_to_book_oppBook (ob : OrderBook) (side : Side) (o : Order) :
    oppBook (add_to_book ob side o) side = oppBook ob side := by
  cases side <;> rfl

theorem placeFuel_ge (ob : OrderBook) (side : Side) (quantity : Nat) :
    (oppBook ob side).length + 1 ≤ placeFuel ob side quantity := by
  cases side <;> simp [placeFuel, oppBook]

theorem placeFuel_erase (ob : OrderBook) (side : Side) (quantity : Nat) :
    placeFuel (eraseTimes ob) side quantity = placeFuel ob side quantity := by
  cases side <;> simp [placeFuel, eraseTimes, eraseTimesB]

theorem suffix_head_key (b b' : BMap) (hord : MapOrdered b)
    (hsuf : List.IsSuffix (b'.map Prod.fst) (b.map Prod.fst)) :
    ∀ k' q' t', b' = (k', q') :: t' →
    ∃ k q t, b = (k, q) :: t ∧ (k = k' ∨ PriceLevel.cmp k k' = Ordering.lt) := by
  intro k' q' t' hb'
  subst hb'
  obtain ⟨pre, hpre⟩ := hsuf
  cases b with
  | nil =>
    exfalso
    simp at hpre
  | cons e t =>
    cases e with
    | mk k q =>
      refine ⟨k, q, t, rfl, ?_⟩
      simp only [List.map_cons] at hpre
      cases pre with
      | nil =>
        left
        simp at hpre
        exact hpre.1.symm
      | cons p ps =>
        right
        simp only [List.cons_append] at hpre
        have hp : p = k := by injection hpre
        have hps : ps ++ k' :: t'.map Prod.fst = t.map Prod.fst := by injection hpre
        have hmem : k' ∈ t.map Prod.fst := by
          rw [← hps]
          exact List.mem_append_right _ (List.mem_cons_self _ _)
        rcases List.mem_map.mp hmem with ⟨e1, he1, he2⟩
        have := (List.pairwise_cons.mp hord).1 e1 he1
        rw [he2] at this
        exact this

theorem sideBook_buy (ob : OrderBook) : sideBook ob Side.Buy = ob.buy_side := rfl

theorem sideBook_sell (ob : OrderBook) : sideBook ob Side.Sell = ob.sell_side := rfl

theorem oppBook_buy (ob : OrderBook) : oppBook ob Side.Buy = ob.sell_side := rfl

theorem oppBook_sell (ob : OrderBook) : oppBook ob Side.Sell = ob.buy_side := rfl

theorem add_to_book_buy (ob : OrderBook) (o : Order) :
    (add_to_book ob Side.Buy o).buy_side =
      bmapPushBack ⟨o.price, Side.Buy⟩ o ob.buy_side := rfl

theorem add_to_book_buy_sell (ob : OrderBook) (o : Order) :
    (add_to_book ob Side.Buy o).sell_side = ob.sell_side := rfl

theorem add_to_book_sell (ob : OrderBook) (o : Order) :
    (add_to_book ob Side.Sell o).sell_side =
      bmapPushBack ⟨o.price, Side.Sell⟩ o ob.sell_side := rfl

theorem add_to_book_sell_buy (ob : OrderBook) (o : Order) :
    (add_to_book ob Side.Sell o).buy_side = ob.buy_side := rfl

theorem best_buy_some (ob : OrderBook) (pb qb : Nat) (h : best_buy ob = some (pb, qb)) :
    ∃ kb qq tb, ob.buy_side = (kb, qq) :: tb ∧ kb.price = pb ∧
      (qq.map Order.quantity).sum = qb := by
  cases hb : ob.buy_side with
  | nil => rw [best_buy, hb] at h; exact Option.noConfusion h
  | cons e tb =>
    cases e with
    | mk kb qq =>
      rw [best_buy, hb] at h
      have h2 : kb.price = pb ∧ (qq.map Order.quantity).sum = qb := by
        have := Option.some.inj h
        exact ⟨congrArg Prod.fst this, congrArg Prod.snd this⟩
      exact ⟨kb, qq, tb, rfl, h2.1, h2.2⟩

theorem best_sell_some (ob : OrderBook) (ps qs : Nat) (h : best_sell ob = some (ps, qs)) :
    ∃ ks qq ts, ob.sell_side = (ks, qq) :: ts ∧ ks.price = ps ∧
      (qq.map Order.quantity).sum = qs := by
  cases hb : ob.sell_side with
  | nil => rw [best_sell, hb] at h; exact Option.noConfusion h
  | cons e ts =>
    cases e with
    | mk ks qq =>
      rw [best_sell, hb] at h
      have h2 : ks.price = ps ∧ (qq.map Order.quantity).sum = qs := by
        have := Option.some.inj h
        exact ⟨congrArg Prod.fst this, congrArg Prod.snd this⟩
      exact ⟨ks, qq, ts, rfl, h2.1, h2.2⟩

theorem best_buy_cons (ob : OrderBook) (k : PriceLevel) (q : Queue) (t : BMap)
    (h : ob.buy_side = (k, q) :: t) :
    best_buy ob = some (k.price, (q.map Order.quantity).sum) := by
  rw [best_buy, h]

theorem best_sell_cons (ob : OrderBook) (k : PriceLevel) (q : Queue) (t : BMap)
    (h : ob.sell_side = (k, q) :: t) :
    best_sell ob = some (k.price, (q.map Order.quantity).sum) := by
  rw [best_sell, h]

theorem place_order_WF_buy (ob : OrderBook) (price quantity id now : Nat) (hwf : BookWF ob) :
    BookWF (place_order ob Side.Buy price quantity id now).1 := by
  obtain ⟨hbo, hso2, hbs, hss, hbq, hsq, hnc⟩ := hwf
  have hod := matchLoop_opp_WF Side.Buy price id (placeFuel ob Side.Buy quantity) quantity ob []
    hso2 hss hsq
  have hown := matchLoop_own_side Side.Buy price id (placeFuel ob Side.Buy quantity) quantity ob []
  have hsuf := matchLoop_opp_keys_suffix Side.Buy price id (placeFuel ob Side.Buy quantity)
    quantity ob []
  have hterm := matchLoop_terminal Side.Buy price id (placeFuel ob Side.Buy quantity) quantity ob []
    (placeFuel_ge ob Side.Buy quantity)
  simp only [sideBook_buy] at hown
  simp only [oppBook_buy] at hsuf hod
  rw [place_order_book]
  by_cases hpos : 0 <
      (matchLoop (placeFuel ob Side.Buy quantity) Side.Buy price id quantity ob []).1
  · rw [if_pos hpos]
    refine ⟨?_, ?_, ?_, ?_, ?_, ?_, ?_⟩
    · rw [add_to_book_buy, hown]
      exact bmapPushBack_ordered _ _ Side.Buy rfl ob.buy_side hbs hbo
    · rw [add_to_book_buy_sell]
      exact hod.1
    · rw [add_to_book_buy, hown]
      exact bmapPushBack_side _ _ Side.Buy rfl ob.buy_side hbs
    · rw [add_to_book_buy_sell]
      exact hod.2.1
    · rw [add_to_book_buy, hown]
      exact bmapPushBack_queues _ _ hpos ob.buy_side hbq
    · rw [add_to_book_buy_sell]
      exact hod.2.2
    · intro pb' qb' ps' qs' hbb hbs'
      obtain ⟨ks', qq', ts', hsell', hksp', _⟩ := best_sell_some _ ps' qs' hbs'
      rw [add_to_book_buy_sell] at hsell'
      have hcross : crosses Side.Buy price ks'.price = false := by
        rcases hterm with h0 | h0 | h0
        · omega
        · rw [oppBook_buy] at h0
          rw [h0] at hsell'
          exact absurd hsell'.symm (List.cons_ne_nil _ _)
        · exact h0 ks' qq' ts' (by rw [oppBook_buy]; exact hsell')
      have hps : price < ps' := by
        have h1 : ¬ (ks'.price ≤ price) := by simpa [crosses] using hcross
        omega
      obtain ⟨kb', qqb', tbb', hbuy', hkbp', _⟩ := best_buy_some _ pb' qb' hbb
      rw [add_to_book_buy, hown] at hbuy'
      have hhead : ((bmapPushBack
          ⟨(⟨id, price, (matchLoop (placeFuel ob Side.Buy quantity) Side.Buy price id quantity
            ob []).1, now⟩ : Order).price, Side.Buy⟩
          ⟨id, price, (matchLoop (placeFuel ob Side.Buy quantity) Side.Buy price id quantity
            ob []).1, now⟩ ob.buy_side).head?.map fun e => e.1.price) = some pb' := by
        rw [hbuy']
        simp [hkbp']
      rcases bmapPushBack_head_price
          ⟨(⟨id, price, (matchLoop (placeFuel ob Side.Buy quantity) Side.Buy price id quantity
            ob []).1, now⟩ : Order).price, Side.Buy⟩
          ⟨id, price, (matchLoop (placeFuel ob Side.Buy quantity) Side.Buy price id quantity
            ob []).1, now⟩ ob.buy_side with hh | hh
      · rw [hhead] at hh
        have hpb : pb' = price := by
          have := Option.some.inj hh
          simpa using this
        omega
      · rw [hhead] at hh
        cases hob : ob.buy_side with
        | nil =>
          rw [hob] at hh
          exact Option.noConfusion hh
        | cons e tb =>
          cases e with
          | mk kb qqb =>
            rw [hob] at hh
            have hpb : pb' = kb.price := by
              have := Option.some.inj hh
              simpa using this
            obtain ⟨ks, qs0, ts, hsell_ob, hks⟩ :=
              suffix_head_key ob.sell_side _ hso2 hsuf ks' qq' ts' hsell'
            have hold : kb.price < ks.price :=
              hnc kb.price ((qqb.map Order.quantity).sum) ks.price ((qs0.map Order.quantity).sum)
                (best_buy_cons ob kb qqb tb hob) (best_sell_cons ob ks qs0 ts hsell_ob)
            have hkk : ks.price ≤ ks'.price := by
              rcases hks with h1 | h1
              · rw [h1]
              · have hkside : ks.side = Side.Sell := hss (ks, qs0) (by rw [hsell_ob]; exact List.mem_cons_self _ _)
                exact Nat.le_of_lt ((cmp_lt_sell ks ks' hkside).mp h1)
            omega
  · rw [if_neg hpos]
    refine ⟨?_, ?_, ?_, ?_, ?_, ?_, ?_⟩
    · rw [hown]; exact hbo
    · exact hod.1
    · rw [hown]; exact hbs
    · exact hod.2.1
    · rw [hown]; exact hbq
    · exact hod.2.2
    · intro pb qb ps qs hbb hbs'
      obtain ⟨kb, qqb, tb, hbuy', hkbp', _⟩ := best_buy_some _ pb qb hbb
      obtain ⟨ks', qq', ts', hsell', hksp', _⟩ := best_sell_some _ ps qs hbs'
      rw [hown] at hbuy'
      obtain ⟨ks, qs0, ts, hsell_ob, hks⟩ :=
        suffix_head_key ob.sell_side _ hso2 hsuf ks' qq' ts' hsell'
      have hold : kb.price < ks.price :=
        hnc kb.price ((qqb.map Order.quantity).sum) ks.price ((qs0.map Order.quantity).sum)
          (best_buy_cons ob kb qqb tb hbuy') (best_sell_cons ob ks qs0 ts hsell_ob)
      have hkk : ks.price ≤ ks'.price := by
        rcases hks with h1 | h1
        · rw [h1]
        · have hkside : ks.side = Side.Sell := hss (ks, qs0) (by rw [hsell_ob]; exact List.mem_cons_self _ _)
          exact Nat.le_of_lt ((cmp_lt_sell ks ks' hkside).mp h1)
      omega

theorem place_order_WF_sell (ob : OrderBook) (price quantity id now : Nat) (hwf : BookWF ob) :
    BookWF (place_order ob Side.Sell price quantity id now).1 := by
  obtain ⟨hbo, hso2, hbs, hss, hbq, hsq, hnc⟩ := hwf
  have hod := matchLoop_opp_WF Side.Sell price id (placeFuel ob Side.Sell quantity) quantity ob []
    hbo hbs hbq
  have hown := matchLoop_own_side Side.Sell price id (placeFuel ob Side.Sell quantity) quantity ob []
  have hsuf := matchLoop_opp_keys_suffix Side.Sell price id (placeFuel ob Side.Sell quantity)
    quantity ob []
  have hterm := matchLoop_terminal Side.Sell price id (placeFuel ob Side.Sell quantity) quantity
    ob [] (placeFuel_ge ob Side.Sell quantity)
  simp only [sideBook_sell] at hown
  simp only [oppBook_sell] at hsuf hod
  rw [place_order_book]
  by_cases hpos : 0 <
      (matchLoop (placeFuel ob Side.Sell quantity) Side.Sell price id quantity ob []).1
  · rw [if_pos hpos]
    refine ⟨?_, ?_, ?_, ?_, ?_, ?_, ?_⟩
    · rw [add_to_book_sell_buy]
      exact hod.1
    · rw [add_to_book_sell, hown]
      exact bmapPushBack_ordered _ _ Side.Sell rfl ob.sell_side hss hso2
    · rw [add_to_book_sell_buy]
      exact hod.2.1
    · rw [add_to_book_sell, hown]
      exact bmapPushBack_side _ _ Side.Sell rfl ob.sell_side hss
    · rw [add_to_book_sell_buy]
      exact hod.2.2
    · rw [add_to_book_sell, hown]
      exact bmapPushBack_queues _ _ hpos ob.sell_side hsq
    · intro pb' qb' ps' qs' hbb hbs'
      obtain ⟨kb', qqb', tbb', hbuy', hkbp', _⟩ := best_buy_some _ pb' qb' hbb
      rw [add_to_book_sell_buy] at hbuy'
      have hcross : crosses Side.Sell price kb'.price = false := by
        rcases hterm with h0 | h0 | h0
        · omega
        · rw [oppBook_sell] at h0
          rw [h0] at hbuy'
          exact absurd hbuy'.symm (List.cons_ne_nil _ _)
        · exact h0 kb' qqb' tbb' (by rw [oppBook_sell]; exact hbuy')
      have hpb : pb' < price := by
        have h1 : ¬ (price ≤ kb'.price) := by simpa [crosses] using hcross
        omega
      obtain ⟨ks', qq', ts', hsell', hksp', _⟩ := best_sell_some _ ps' qs' hbs'
      rw [add_to_book_sell, hown] at hsell'
      have hhead : ((bmapPushBack
          ⟨(⟨id, price, (matchLoop (placeFuel ob Side.Sell quantity) Side.Sell price id quantity
            ob []).1, now⟩ : Order).price, Side.Sell⟩
          ⟨id, price, (matchLoop (placeFuel ob Side.Sell quantity) Side.Sell price id quantity
            ob []).1, now⟩ ob.sell_side).head?.map fun e => e.1.price) = some ps' := by
        rw [hsell']
        simp [hksp']
      rcases bmapPushBack_head_price
          ⟨(⟨id, price, (matchLoop (placeFuel ob Side.Sell quantity) Side.Sell price id quantity
            ob []).1, now⟩ : Order).price, Side.Sell⟩
          ⟨id, price, (matchLoop (placeFuel ob Side.Sell quantity) Side.Sell price id quantity
            ob []).1, now⟩ ob.sell_side with hh | hh
      · rw [hhead] at hh
        have hpsp : ps' = price := by
          have := Option.some.inj hh
          simpa using this
        omega
      · rw [hhead] at hh
        cases hob : ob.sell_side with
        | nil =>
          rw [hob] at hh
          exact Option.noConfusion hh
        | cons e ts =>
          cases e with
          | mk ks qqs =>
            rw [hob] at hh
            have hpsp : ps' = ks.price := by
              have := Option.some.inj hh
              simpa using this
            obtain ⟨kb, qb0, tb, hbuy_ob, hkb⟩ :=
              suffix_head_key ob.buy_side _ hbo hsuf kb' qqb' tbb' hbuy'
            have hold : kb.price < ks.price :=
              hnc kb.price ((qb0.map Order.quantity).sum) ks.price ((qqs.map Order.quantity).sum)
                (best_buy_cons ob kb qb0 tb hbuy_ob) (best_sell_cons ob ks qqs ts hob)
            have hkk : kb'.price ≤ kb.price := by
              rcases hkb with h1 | h1
              · rw [h1]
              · have hkside : kb.side = Side.Buy := hbs (kb, qb0) (by rw [hbuy_ob]; exact List.mem_cons_self _ _)
                exact Nat.le_of_lt ((cmp_lt_buy kb kb' hkside).mp h1)
            omega
  · rw [if_neg hpos]
    refine ⟨?_, ?_, ?_, ?_, ?_, ?_, ?_⟩
    · exact hod.1
    · rw [hown]; exact hso2
    · exact hod.2.1
    · rw [hown]; exact hss
    · exact hod.2.2
    · rw [hown]; exact hsq
    · intro pb qb ps qs hbb hbs'
      obtain ⟨kb', qqb', tbb', hbuy', hkbp', _⟩ := best_buy_some _ pb qb hbb
      obtain ⟨ks, qqs, ts, hsell', hksp', _⟩ := best_sell_some _ ps qs hbs'
      rw [hown] at hsell'
      obtain ⟨kb, qb0, tb, hbuy_ob, hkb⟩ :=
        suffix_head_key ob.buy_side _ hbo hsuf kb' qqb' tbb' hbuy'
      have hold : kb.price < ks.price :=
        hnc kb.price ((qb0.map Order.quantity).sum) ks.price ((qqs.map Order.quantity).sum)
          (best_buy_cons ob kb qb0 tb hbuy_ob) (best_sell_cons ob ks qqs ts hsell')
      have hkk : kb'.price ≤ kb.price := by
        rcases hkb with h1 | h1
        · rw [h1]
        · have hkside : kb.side = Side.Buy := hbs (kb, qb0) (by rw [hbuy_ob]; exact List.mem_cons_self _ _)
          exact Nat.le_of_lt ((cmp_lt_buy kb kb' hkside).mp h1)
      omega

theorem place_order_WF (ob : OrderBook) (side : Side) (price quantity id now : Nat)
    (hwf : BookWF ob) : BookWF (place_order ob side price quantity id now).1 := by
  cases side
  · exact place_order_WF_buy ob price quantity id now hwf
  · exact place_order_WF_sell ob price quantity id now hwf

theorem empty_WF : BookWF OrderBook.empty := by
  refine ⟨?_, ?_, ?_, ?_, ?_, ?_, ?_⟩ <;>
    simp [OrderBook.empty, MapOrdered, MapSide, MapQueuesWF, best_buy, best_sell]

theorem reachable_WF (ob : OrderBook) (h : Reachable ob) : BookWF ob := by
  induction h with
  | empty => exact empty_WF
  | step ob side price quantity id now _ ih =>
    exact place_order_WF ob side price quantity id now ih

/-! ### Timestamp erasure through `place_order` and `runSeq` -/

theorem eraseTimesQ_idem (q : Queue) : eraseTimesQ (eraseTimesQ q) = eraseTimesQ q := by
  simp only [eraseTimesQ, List.map_map]
  exact List.map_congr_left fun a _ => rfl

theorem eraseTimesB_idem (b : BMap) : eraseTimesB (eraseTimesB b) = eraseTimesB b := by
  simp only [eraseTimesB, List.map_map]
  refine List.map_congr_left fun e _ => ?_
  simp [Function.comp, eraseTimesQ_idem]

theorem eraseTimes_idem (ob : OrderBook) : eraseTimes (eraseTimes ob) = eraseTimes ob := by
  simp [eraseTimes, eraseTimesB_idem]

theorem add_to_book_erase (ob : OrderBook) (side : Side) (o : Order) :
    eraseTimes (add_to_book ob side o) =
      add_to_book (eraseTimes ob) side (eraseTime o) := by
  cases side <;>
    simp [add_to_book, eraseTimes, eraseTime, bmapPushBack_erase] <;>
    exact (bmapPushBack_erase _ o _).symm

theorem place_order_erase (ob : OrderBook) (side : Side) (price quantity id now now' : Nat) :
    (place_order (eraseTimes ob) side price quantity id now').2 =
      (place_order ob side price quantity id now).2 ∧
    eraseTimes (place_order (eraseTimes ob) side price quantity id now').1 =
      eraseTimes (place_order ob side price quantity id now).1 := by
  have hml := matchLoop_erase side price id (placeFuel ob side quantity) quantity ob []
  constructor
  · rw [place_order_trades, place_order_trades, placeFuel_erase, hml]
  · rw [place_order_book, place_order_book, placeFuel_erase, hml]
    by_cases hpos : 0 < (matchLoop (placeFuel ob side quantity) side price id quantity ob []).1
    · have hpos2 : 0 < ((matchLoop (placeFuel ob side quantity) side price id quantity ob []).1,
          eraseTimes (matchLoop (placeFuel ob side quantity) side price id quantity ob []).2.1,
          (matchLoop (placeFuel ob side quantity) side price id quantity ob []).2.2).1 := hpos
      rw [if_pos hpos2, if_pos hpos]
      rw [add_to_book_erase, add_to_book_erase, eraseTimes_idem]
      simp [eraseTime]
    · have hpos2 : ¬ 0 < ((matchLoop (placeFuel ob side quantity) side price id quantity ob []).1,
          eraseTimes (matchLoop (placeFuel ob side quantity) side price id quantity ob []).2.1,
          (matchLoop (placeFuel ob side quantity) side price id quantity ob []).2.2).1 := hpos
      rw [if_neg hpos2, if_neg hpos, eraseTimes_idem]

theorem runSeq_erase_rel (clock1 clock2 : Nat → Nat) :
    ∀ reqs : List (Side × Nat × Nat × Nat), ∀ i j : Nat, ∀ ob1 ob2 : OrderBook,
    eraseTimes ob1 = eraseTimes ob2 →
    (runSeq clock1 i ob1 reqs).2 = (runSeq clock2 j ob2 reqs).2 ∧
    eraseTimes (runSeq clock1 i ob1 reqs).1 = eraseTimes (runSeq clock2 j ob2 reqs).1 := by
  intro reqs
  induction reqs with
  | nil => intro i j ob1 ob2 h; exact ⟨rfl, h⟩
  | cons req rest ih =>
    intro i j ob1 ob2 h
    obtain ⟨side, price, quantity, id⟩ := req
    have ht1 := (place_order_erase ob1 side price quantity id (clock1 i) 0).1
    have ht2 := (place_order_erase ob2 side price quantity id (clock2 j) 0).1
    have hb1 := (place_order_erase ob1 side price quantity id (clock1 i) 0).2
    have hb2 := (place_order_erase ob2 side price quantity id (clock2 j) 0).2
    rw [h] at ht1 hb1
    have htr : (place_order ob1 side price quantity id (clock1 i)).2 =
        (place_order ob2 side price quantity id (clock2 j)).2 := by
      rw [← ht1, ← ht2]
    have hbk : eraseTimes (place_order ob1 side price quantity id (clock1 i)).1 =
        eraseTimes (place_order ob2 side price quantity id (clock2 j)).1 := by
      rw [← hb1, ← hb2]
    have hrec := ih (i + 1) (j + 1) (place_order ob1 side price quantity id (clock1 i)).1
      (place_order ob2 side price quantity id (clock2 j)).1 hbk
    simp only [runSeq]
    exact ⟨by rw [htr, hrec.1], hrec.2⟩

/-! ### Claim theorems -/

/-- C1: for every book state and every `place_order(side, price, quantity, id)` call, the
sum of the quantities of the returned trades plus the quantity of the resting order
inserted by this call (0 if none was inserted) equals the submitted quantity.  The
leftover of the matching loop is exactly the quantity of the inserted resting order
(second conjunct: the order `⟨id, price, leftover, now⟩` is inserted iff the leftover is
positive), and trades plus leftover add up to the submitted quantity (first conjunct). -/
theorem place_order_conservation (ob : OrderBook) (side : Side) (price quantity id now : Nat) :
    (((place_order ob side price quantity id now).2).map Trade.quantity).sum +
      (matchLoop (placeFuel ob side quantity) side price id quantity ob []).1 = quantity ∧
    (place_order ob side price quantity id now).1 =
      (if 0 < (matchLoop (placeFuel ob side quantity) side price id quantity ob []).1 then
        add_to_book (matchLoop (placeFuel ob side quantity) side price id quantity ob []).2.1
          side
          ⟨id, price, (matchLoop (placeFuel ob side quantity) side price id quantity ob []).1,
            now⟩
       else (matchLoop (placeFuel ob side quantity) side price id quantity ob []).2.1) := by
  constructor
  · rw [place_order_trades]
    have h := matchLoop_conserve side price id (placeFuel ob side quantity) quantity ob []
    simp only [List.map_nil, List.sum_nil] at h
    omega
  · exact place_order_book ob side price quantity id now

/-- C5: on the stipulated crossed book (one resting Sell at 99 qty 10 id 101, one resting
Buy at 100 qty 11 id 102), `place_order(Sell, 98, 10, 2)` matches against the Buy side
only, returns exactly the single trade `{price 100, quantity 10, maker 102, taker 2}`,
and leaves the resting Sell at 99 untouched (the Buy order keeps quantity 1). -/
theorem crossed_book_scenario (t0 t1 now : Nat) :
    place_order ⟨[(⟨100, Side.Buy⟩, [⟨102, 100, 11, t1⟩])],
                 [(⟨99, Side.Sell⟩, [⟨101, 99, 10, t0⟩])]⟩ Side.Sell 98 10 2 now =
      (⟨[(⟨100, Side.Buy⟩, [⟨102, 100, 1, t1⟩])],
        [(⟨99, Side.Sell⟩, [⟨101, 99, 10, t0⟩])]⟩, [⟨100, 10, 102, 2⟩]) := by
  rfl

/-- C6: `PriceLevel.cmp` compares Sell keys by natural ascending price and Buy keys by
inverted price (`other.price` against `self.price`), so that in a minimum-first sorted
map the first key carries the best price of its side: no other key of a Buy map has a
higher price than the head, and no other key of a Sell map has a lower price than the
head. -/
theorem pricelevel_ord (a b : PriceLevel) (hs : a.side = b.side) :
    (a.side = Side.Sell → PriceLevel.cmp a b = compare a.price b.price) ∧
    (a.side = Side.Buy → PriceLevel.cmp a b = compare b.price a.price) ∧
    (∀ (s : Side) (m : BMap), MapOrdered m → MapSide s m →
      ∀ e ∈ m, ∀ eh ∈ m.head?,
        (s = Side.Buy → e.1.price ≤ eh.1.price) ∧ (s = Side.Sell → eh.1.price ≤ e.1.price)) := by
  refine ⟨?_, ?_, ?_⟩
  · intro h
    obtain ⟨p, s⟩ := a
    cases s
    · exact absurd h (by simp)
    · rfl
  · intro h
    obtain ⟨p, s⟩ := a
    cases s
    · rfl
    · exact absurd h (by simp)
  · intro s m hord hside e he eh heh
    cases m with
    | nil => exact absurd he (List.not_mem_nil _)
    | cons h0 t =>
      have heh2 : eh = h0 := by
        have := heh
        simp only [List.head?_cons, Option.mem_def, Option.some.injEq] at this
        exact this.symm
      subst heh2
      rcases List.mem_cons.mp he with h1 | h1
      · subst h1
        exact ⟨fun _ => le_refl _, fun _ => le_refl _⟩
      · have hlt := (List.pairwise_cons.mp hord).1 e h1
        have hs0 : eh.1.side = s := hside eh (List.mem_cons_self _ _)
        constructor
        · intro hb
          exact Nat.le_of_lt ((cmp_lt_buy eh.1 e.1 (by rw [hs0, hb])).mp hlt)
        · intro hb
          exact Nat.le_of_lt ((cmp_lt_sell eh.1 e.1 (by rw [hs0, hb])).mp hlt)

/-- C7: placing an order with quantity 0 returns the empty trade list and leaves the
book completely unchanged; in particular `best_buy`, `best_sell`, `get_orders` and both
emptiness queries agree before and after. -/
theorem zero_quantity_noop (ob : OrderBook) (side : Side) (price id now : Nat) :
    place_order ob side price 0 id now = (ob, []) ∧
    best_buy (place_order ob side price 0 id now).1 = best_buy ob ∧
    best_sell (place_order ob side price 0 id now).1 = best_sell ob ∧
    (∀ k, get_orders (place_order ob side price 0 id now).1 k = get_orders ob k) ∧
    is_buy_side_empty (place_order ob side price 0 id now).1 = is_buy_side_empty ob ∧
    is_sell_side_empty (place_order ob side price 0 id now).1 = is_sell_side_empty ob := by
  have h : place_order ob side price 0 id now = (ob, []) := by
    simp [place_order, matchLoop_zero_qty]
  exact ⟨h, by rw [h], by rw [h], fun k => by rw [h], by rw [h], by rw [h]⟩

/-- C8: the matching loop of `place_order` terminates: run with the fuel `place_order`
supplies, it reaches a terminal state — the taker quantity is exhausted, the opposite
side is empty, or the best remaining opposite level fails the crossing test.  This is
the termination argument for the Rust `while` loop: every iteration either zeroes the
remaining quantity or removes one opposite price level, so `quantity + levels + 1`
iterations always suffice. -/
theorem place_order_terminates (ob : OrderBook) (side : Side) (price quantity id : Nat) :
    LoopDone side price
      (matchLoop (placeFuel ob side quantity) side price id quantity ob []).1
      (matchLoop (placeFuel ob side quantity) side price id quantity ob []).2.1 :=
  matchLoop_terminal side price id (placeFuel ob side quantity) quantity ob []
    (placeFuel_ge ob side quantity)

/-- C9: two runs of the same request sequence that differ only in the wall-clock values
used to stamp the orders return identical trade lists for every call, and the final
books agree except for the timestamp fields of resting orders: timestamps never
influence matching or ordering decisions. -/
theorem timestamps_immaterial (ob : OrderBook) (clock1 clock2 : Nat → Nat)
    (reqs : List (Side × Nat × Nat × Nat)) :
    (runSeq clock1 0 ob reqs).2 = (runSeq clock2 0 ob reqs).2 ∧
    eraseTimes (runSeq clock1 0 ob reqs).1 = eraseTimes (runSeq clock2 0 ob reqs).1 :=
  runSeq_erase_rel clock1 clock2 reqs 0 0 ob ob rfl

/-- C10: every book state reachable from the empty book by `place_order` calls is never
crossed at rest: whenever both sides are non-empty, the best Buy price is strictly below
the best Sell price. -/
theorem reachable_never_crossed (ob : OrderBook) (h : Reachable ob) :
    ∀ pb qb ps qs, best_buy ob = some (pb, qb) → best_sell ob = some (ps, qs) → pb < ps :=
  (reachable_WF ob h).2.2.2.2.2.2

/-- C2: for a book whose opposite-side map is a well-formed `BTreeMap` representation
(sorted by `PriceLevel.cmp` with keys of the opposite side), every trade produced by a
`place_order` call crosses (for a Buy taker every trade price is at most the taker
price, for a Sell taker at least); trades are produced best-price-first (the trade
price sequence is monotone in the taker-favourable direction, and every trade is no
better than the best opposite level at call time); and every opposite level whose price
fails the crossing test keeps exactly the queue it had — matching stops at the first
non-crossing level and never touches deeper ones. -/
theorem place_order_price_priority (ob : OrderBook) (side : Side)
    (price quantity id now : Nat) (hord : MapOrdered (oppBook ob side))
    (hside : MapSide (oppositeSide side) (oppBook ob side)) :
    (∀ tr ∈ (place_order ob side price quantity id now).2,
      crosses side price tr.price = true) ∧
    List.Pairwise (noWorse side)
      (((place_order ob side price quantity id now).2).map Trade.price) ∧
    (∀ k0 q0 t0, oppBook ob side = (k0, q0) :: t0 →
      ∀ tr ∈ (place_order ob side price quantity id now).2, noWorse side k0.price tr.price) ∧
    (∀ k : PriceLevel, crosses side price k.price = false →
      bmapFind k (oppBook (place_order ob side price quantity id now).1 side) =
        bmapFind k (oppBook ob side)) := by
  refine ⟨?_, ?_, ?_, ?_⟩
  · rw [place_order_trades]
    intro tr htr
    exact matchLoop_crossing side price id (placeFuel ob side quantity) quantity ob []
      (by simp) tr htr
  · rw [place_order_trades]
    exact (matchLoop_best_first side price id (placeFuel ob side quantity) quantity ob
      hord hside).1
  · intro k0 q0 t0 h0
    rw [place_order_trades]
    intro tr htr
    exact (matchLoop_best_first side price id (placeFuel ob side quantity) quantity ob
      hord hside).2 k0 q0 t0 h0 tr.price (List.mem_map_of_mem Trade.price htr)
  · intro k hk
    rw [place_order_book]
    by_cases hpos : 0 <
        (matchLoop (placeFuel ob side quantity) side price id quantity ob []).1
    · rw [if_pos hpos, add_to_book_oppBook]
      exact matchLoop_untouched side price id (placeFuel ob side quantity) quantity ob [] k hk
    · rw [if_neg hpos]
      exact matchLoop_untouched side price id (placeFuel ob side quantity) quantity ob [] k hk

/-- C3: within one price level resting orders are filled strictly front-first
(FIFO): the maker ids of the trades emitted by `match_at_price_level` are exactly the
ids of the first orders of the queue in queue order; every emitted trade carries the
level price and the taker id; the first fill is `min(takerQty, front.quantity)` against
the front (oldest) order; and `add_to_book` appends a new resting order at the back of
its level's queue, so match order equals insertion order. -/
theorem level_fifo (ob : OrderBook) (bside : Side) (price qty tid : Nat) (orders : Queue)
    (hfind : bmapFind ⟨price, bside⟩ (sideBook ob bside) = some orders)
    (ob2 : OrderBook) (side : Side) (o : Order)
    (hord : MapOrdered (sideBook ob2 side)) (hside : MapSide side (sideBook ob2 side)) :
    (((matchAtPriceLevel ob bside price qty tid []).2.2).map Trade.maker_id =
      (orders.map Order.id).take ((matchAtPriceLevel ob bside price qty tid []).2.2).length) ∧
    (∀ tr ∈ (matchAtPriceLevel ob bside price qty tid []).2.2,
      tr.price = price ∧ tr.taker_id = tid) ∧
    (∀ front rest, orders = front :: rest → 0 < qty →
      ((matchAtPriceLevel ob bside price qty tid []).2.2).head? =
        some ⟨price, min qty front.quantity, front.id, tid⟩) ∧
    (get_orders (add_to_book ob2 side o) ⟨o.price, side⟩ =
      some ((get_orders ob2 ⟨o.price, side⟩).getD [] ++ [o])) := by
  refine ⟨?_, ?_, ?_, ?_⟩
  · rw [matchAtPriceLevel_some ob bside price qty tid [] orders hfind]
    exact fillQueue_maker_ids price tid (qty + orders.length + 1) qty orders
  · rw [matchAtPriceLevel_some ob bside price qty tid [] orders hfind]
    intro tr htr
    rcases fillQueue_trade_fields price tid (qty + orders.length + 1) qty orders [] tr htr
      with h1 | h1
    · exact absurd h1 (List.not_mem_nil _)
    · exact h1
  · intro front rest horders hq
    rw [matchAtPriceLevel_some ob bside price qty tid [] orders hfind, horders]
    exact fillQueue_head_trade price tid (qty + (front :: rest).length) qty front rest hq
  · cases side
    · have hfind2 := bmapPushBack_find ⟨o.price, Side.Buy⟩ o Side.Buy rfl
        ob2.buy_side hside hord
      simpa [get_orders, add_to_book] using hfind2
    · have hfind2 := bmapPushBack_find ⟨o.price, Side.Sell⟩ o Side.Sell rfl
        ob2.sell_side hside hord
      simpa [get_orders, add_to_book] using hfind2

/-- C4: in every book state reachable from the empty book by `place_order` calls, every
price level present in either map has a non-empty queue (emptied levels are removed
immediately), and every resting order has positive quantity. -/
theorem no_dangling_levels (ob : OrderBook) (h : Reachable ob) :
    (∀ e ∈ ob.buy_side, e.2 ≠ [] ∧ ∀ o ∈ e.2, 0 < o.quantity) ∧
    (∀ e ∈ ob.sell_side, e.2 ≠ [] ∧ ∀ o ∈ e.2, 0 < o.quantity) := by
  have hwf := reachable_WF ob h
  exact ⟨hwf.2.2.2.2.1, hwf.2.2.2.2.2.1⟩

/-! ### Witnesses -/

/-- Witness for C2 at a concrete book: sell levels (100, qty 5, id 101) and
(105, qty 5, id 102), taker `Buy 100 qty 10 id 3`. -/
theorem place_order_price_priority_witness :
    (∀ tr ∈ (place_order ⟨[], [(⟨100, Side.Sell⟩, [⟨101, 100, 5, 0⟩]),
        (⟨105, Side.Sell⟩, [⟨102, 105, 5, 0⟩])]⟩ Side.Buy 100 10 3 7).2,
      crosses Side.Buy 100 tr.price = true) ∧
    List.Pairwise (noWorse Side.Buy)
      (((place_order ⟨[], [(⟨100, Side.Sell⟩, [⟨101, 100, 5, 0⟩]),
        (⟨105, Side.Sell⟩, [⟨102, 105, 5, 0⟩])]⟩ Side.Buy 100 10 3 7).2).map Trade.price) ∧
    (∀ k0 q0 t0, oppBook ⟨[], [(⟨100, Side.Sell⟩, [⟨101, 100, 5, 0⟩]),
        (⟨105, Side.Sell⟩, [⟨102, 105, 5, 0⟩])]⟩ Side.Buy = (k0, q0) :: t0 →
      ∀ tr ∈ (place_order ⟨[], [(⟨100, Side.Sell⟩, [⟨101, 100, 5, 0⟩]),
        (⟨105, Side.Sell⟩, [⟨102, 105, 5, 0⟩])]⟩ Side.Buy 100 10 3 7).2,
        noWorse Side.Buy k0.price tr.price) ∧
    (∀ k : PriceLevel, crosses Side.Buy 100 k.price = false →
      bmapFind k (oppBook (place_order ⟨[], [(⟨100, Side.Sell⟩, [⟨101, 100, 5, 0⟩]),
        (⟨105, Side.Sell⟩, [⟨102, 105, 5, 0⟩])]⟩ Side.Buy 100 10 3 7).1 Side.Buy) =
        bmapFind k (oppBook ⟨[], [(⟨100, Side.Sell⟩, [⟨101, 100, 5, 0⟩]),
        (⟨105, Side.Sell⟩, [⟨102, 105, 5, 0⟩])]⟩ Side.Buy)) :=
  place_order_price_priority
    ⟨[], [(⟨100, Side.Sell⟩, [⟨101, 100, 5, 0⟩]), (⟨105, Side.Sell⟩, [⟨102, 105, 5, 0⟩])]⟩
    Side.Buy 100 10 3 7 (by unfold MapOrdered; decide) (by unfold MapSide; decide)

/-- Witness for C3 at a concrete level: sell queue at price 100 holding ids 7 then 8,
taker qty 5 id 9; the appended order has id 12. -/
theorem level_fifo_witness :
    (((matchAtPriceLevel ⟨[], [(⟨100, Side.Sell⟩, [⟨7, 100, 4, 0⟩, ⟨8, 100, 6, 0⟩])]⟩
        Side.Sell 100 5 9 []).2.2).map Trade.maker_id =
      (([⟨7, 100, 4, 0⟩, ⟨8, 100, 6, 0⟩] : Queue).map Order.id).take
        ((matchAtPriceLevel ⟨[], [(⟨100, Side.Sell⟩, [⟨7, 100, 4, 0⟩, ⟨8, 100, 6, 0⟩])]⟩
          Side.Sell 100 5 9 []).2.2).length) ∧
    (∀ tr ∈ (matchAtPriceLevel ⟨[], [(⟨100, Side.Sell⟩, [⟨7, 100, 4, 0⟩, ⟨8, 100, 6, 0⟩])]⟩
        Side.Sell 100 5 9 []).2.2, tr.price = 100 ∧ tr.taker_id = 9) ∧
    (∀ front rest, ([⟨7, 100, 4, 0⟩, ⟨8, 100, 6, 0⟩] : Queue) = front :: rest → 0 < 5 →
      ((matchAtPriceLevel ⟨[], [(⟨100, Side.Sell⟩, [⟨7, 100, 4, 0⟩, ⟨8, 100, 6, 0⟩])]⟩
        Side.Sell 100 5 9 []).2.2).head? =
        some ⟨100, min 5 front.quantity, front.id, 9⟩) ∧
    (get_orders (add_to_book ⟨[], [(⟨100, Side.Sell⟩, [⟨7, 100, 4, 0⟩, ⟨8, 100, 6, 0⟩])]⟩
        Side.Sell ⟨12, 100, 3, 5⟩) ⟨(⟨12, 100, 3, 5⟩ : Order).price, Side.Sell⟩ =
      some ((get_orders ⟨[], [(⟨100, Side.Sell⟩, [⟨7, 100, 4, 0⟩, ⟨8, 100, 6, 0⟩])]⟩
        ⟨(⟨12, 100, 3, 5⟩ : Order).price, Side.Sell⟩).getD [] ++ [⟨12, 100, 3, 5⟩])) :=
  level_fifo ⟨[], [(⟨100, Side.Sell⟩, [⟨7, 100, 4, 0⟩, ⟨8, 100, 6, 0⟩])]⟩ Side.Sell 100 5 9
    [⟨7, 100, 4, 0⟩, ⟨8, 100, 6, 0⟩] (by decide)
    ⟨[], [(⟨100, Side.Sell⟩, [⟨7, 100, 4, 0⟩, ⟨8, 100, 6, 0⟩])]⟩ Side.Sell ⟨12, 100, 3, 5⟩
    (by unfold MapOrdered; decide) (by unfold MapSide; decide)

/-- Witness for C4 on the reachable book obtained by placing `Buy 100 10 id 1` and then
`Sell 105 5 id 2` on the empty book. -/
theorem no_dangling_levels_witness :
    (∀ e ∈ ((place_order (place_order OrderBook.empty Side.Buy 100 10 1 0).1
        Side.Sell 105 5 2 1).1).buy_side, e.2 ≠ [] ∧ ∀ o ∈ e.2, 0 < o.quantity) ∧
    (∀ e ∈ ((place_order (place_order OrderBook.empty Side.Buy 100 10 1 0).1
        Side.Sell 105 5 2 1).1).sell_side, e.2 ≠ [] ∧ ∀ o ∈ e.2, 0 < o.quantity) :=
  no_dangling_levels _
    (Reachable.step (place_order OrderBook.empty Side.Buy 100 10 1 0).1 Side.Sell 105 5 2 1
      (Reachable.step OrderBook.empty Side.Buy 100 10 1 0 Reachable.empty))

/-- Witness for C6 at the concrete same-side pair `⟨3, Sell⟩`, `⟨5, Sell⟩`. -/
theorem pricelevel_ord_witness :
    ((Side.Sell : Side) = Side.Sell →
      PriceLevel.cmp ⟨3, Side.Sell⟩ ⟨5, Side.Sell⟩ = compare 3 5) ∧
    ((Side.Sell : Side) = Side.Buy →
      PriceLevel.cmp ⟨3, Side.Sell⟩ ⟨5, Side.Sell⟩ = compare 5 3) ∧
    (∀ (s : Side) (m : BMap), MapOrdered m → MapSide s m →
      ∀ e ∈ m, ∀ eh ∈ m.head?,
        (s = Side.Buy → e.1.price ≤ eh.1.price) ∧
        (s = Side.Sell → eh.1.price ≤ e.1.price)) :=
  pricelevel_ord ⟨3, Side.Sell⟩ ⟨5, Side.Sell⟩ rfl

/-- Witness for C10 on the reachable book obtained by placing `Buy 90 10 id 1` and then
`Sell 110 5 id 2` on the empty book: both sides are non-empty and the best prices are
not crossed. -/
theorem reachable_never_crossed_witness :
    best_buy (place_order (place_order OrderBook.empty Side.Buy 90 10 1 0).1
        Side.Sell 110 5 2 1).1 = some (90, 10) ∧
    best_sell (place_order (place_order OrderBook.empty Side.Buy 90 10 1 0).1
        Side.Sell 110 5 2 1).1 = some (110, 5) ∧
    90 < 110 :=
  ⟨by decide, by decide,
    reachable_never_crossed _
      (Reachable.step (place_order OrderBook.empty Side.Buy 90 10 1 0).1 Side.Sell 110 5 2 1
        (Reachable.step OrderBook.empty Side.Buy 90 10 1 0 Reachable.empty))
      90 10 110 5 (by decide) (by decide)⟩

end VanillaOrderbook
